import Mathlib

/-!
Verification development for the HelixGate registry validation and snapshot
engine. The two programs under study are the compile validator
(04_validation/compile_validator.py) and the snapshot generator
(scripts/snapshot_generator.py). Both read four JSON artifacts (registry,
ACU index, dependency graph, version manifest); the validator enforces the
freeze-mode firewall, the structural checks and the hash comparison, the
snapshot generator verifies the hash and publishes rolling and archival
snapshot files.

The embedding below is shallow: JSON documents become an inductive value
type, the library serializer json.dumps(obj, sort_keys=True,
separators=(",", ":"), ensure_ascii=False) becomes an executable canonical
serializer over that type, hashlib.sha256(...).hexdigest() becomes an
executable SHA-256 over byte lists (machine words are Nat with explicit
reduction modulo 2^32), the filesystem touched by the snapshot generator
becomes an explicit association list from path to content, and the external
git subprocess becomes an input value carrying a return code and a stdout
string (with the raised-exception case as the error branch of an Except).
Each artifact document is modelled by a record of exactly the fields the
programs read, with its JSON identity recovered by a toJson function; runs
that would raise a Python KeyError on a malformed document fall outside all
properties studied here and are modelled by the none branch where relevant.
-/

namespace HG

/-! ### Python string primitives used by the programs -/

/-- Whitespace recognized by the str.strip call on git stdout (ASCII range). -/
def pyIsSpace (c : Char) : Bool :=
  c.toNat == 32 || c.toNat == 9 || c.toNat == 10 || c.toNat == 13 || c.toNat == 11 || c.toNat == 12

/-- Models Python str.strip(): drop leading and trailing whitespace. -/
def pyStrip (s : String) : String :=
  String.mk (((s.data.dropWhile pyIsSpace).reverse.dropWhile pyIsSpace).reverse)

/-- Helper for pySplitNl: accumulate the current field (reversed) while
scanning for separator characters. -/
def splitNlAux : List Char → List Char → List String
  | [], acc => [String.mk acc.reverse]
  | c :: rest, acc =>
      if c == '\n' then String.mk acc.reverse :: splitNlAux rest []
      else splitNlAux rest (c :: acc)

/-- Models Python str.split("\n"): fields between newline separators, with
empty fields kept, and the empty string splitting to a single empty field. -/
def pySplitNl (s : String) : List String := splitNlAux s.data []

/-- Code-point comparison of character lists, the order Python uses on str. -/
def charsLe : List Char → List Char → Bool
  | [], _ => true
  | _ :: _, [] => false
  | a :: as, b :: bs =>
      if a.toNat < b.toNat then true
      else if b.toNat < a.toNat then false
      else charsLe as bs

/-- Models the total order sorted() applies to str keys: lexicographic by
Unicode code point. -/
def strLeB (a b : String) : Bool := charsLe a.data b.data

/-- Insert a keyed pair into a key-sorted list, before the first key it is
less-or-equal to; used to model the stable ascending sort of sorted(). -/
def insertByKey {α : Type} (p : String × α) : List (String × α) → List (String × α)
  | [] => [p]
  | q :: rest => if strLeB p.1 q.1 then p :: q :: rest else q :: insertByKey p rest

/-- Stable insertion sort of keyed pairs by key, modelling the sorted-keys
traversal json.dumps performs on a dict when sort_keys=True is set. -/
def sortByKey {α : Type} : List (String × α) → List (String × α)
  | [] => []
  | p :: rest => insertByKey p (sortByKey rest)

/-! ### The JSON value type and the canonical serializer

Documents are nested mappings, sequences, strings, integers, booleans and
null, exactly the value family json.load produces for the artifacts at
hand (the registry data carries no floats). Mappings produced by json.load
have pairwise-distinct keys, but the type does not enforce that; every
function below is total on the raw type. -/

inductive Json where
  | null
  | bool (b : Bool)
  | num (n : Int)
  | str (s : String)
  | arr (elems : List Json)
  | obj (members : List (String × Json))

/-- Decimal digits of a positive Nat, most significant first; structural on
a fuel argument so that the kernel can evaluate it. -/
def natDecAux : Nat → Nat → List Char
  | 0, _ => []
  | _ + 1, 0 => []
  | f + 1, n => natDecAux f (n / 10) ++ [Char.ofNat (48 + n % 10)]

/-- Decimal rendering of a Nat, as Python repr renders a nonnegative int. -/
def natDec (n : Nat) : String :=
  if n = 0 then "0" else String.mk (natDecAux (n + 1) n)

/-- Decimal rendering of an Int, as Python repr renders an int: minimal
digits with a leading minus sign for negatives. -/
def intDec : Int → String
  | .ofNat m => natDec m
  | .negSucc m => "-" ++ natDec (m + 1)

/-- Lowercase hex digit for a value below 16. -/
def hexNibble (n : Nat) : Char :=
  if n < 10 then Char.ofNat (48 + n) else Char.ofNat (87 + n)

/-- Two lowercase hex digits of a byte. -/
def byteToHex (b : Nat) : List Char := [hexNibble (b / 16), hexNibble (b % 16)]

/-- Escape of one character inside a JSON string literal as json.dumps with
ensure_ascii=False performs it: quote, backslash and ASCII control
characters are escaped, everything else passes through unchanged. -/
def escChar (c : Char) : String :=
  if c == '"' then "\\\""
  else if c == '\\' then "\\\\"
  else if c == '\n' then "\\n"
  else if c == '\t' then "\\t"
  else if c == '\r' then "\\r"
  else if c.toNat == 8 then "\\b"
  else if c.toNat == 12 then "\\f"
  else if c.toNat < 32 then "\\u00" ++ String.mk (byteToHex c.toNat)
  else String.singleton c

/-- Concatenation of a list of strings. -/
def joinAll : List String → String
  | [] => ""
  | x :: xs => x ++ joinAll xs

/-- Separator-joined concatenation, modelling how the serializer places the
item separator between successive rendered items. -/
def joinSep (sep : String) : List String → String
  | [] => ""
  | [x] => x
  | x :: xs => x ++ sep ++ joinSep sep xs

/-- A JSON string literal under ensure_ascii=False. -/
def jsonQuote (s : String) : String :=
  "\"" ++ joinAll (s.data.map escChar) ++ "\""

/-- Escape of one character as json.dump with the default ensure_ascii=True
performs it: non-ASCII code points become \uXXXX sequences, with surrogate
pairs above the basic plane. -/
def escCharAscii (c : Char) : String :=
  if c.toNat < 128 then escChar c
  else if c.toNat < 65536 then
    "\\u" ++ String.mk (byteToHex (c.toNat / 256) ++ byteToHex (c.toNat % 256))
  else
    let v := c.toNat - 65536
    let hi := 55296 + v / 1024
    let lo := 56320 + v % 1024
    "\\u" ++ String.mk (byteToHex (hi / 256) ++ byteToHex (hi % 256)) ++
    "\\u" ++ String.mk (byteToHex (lo / 256) ++ byteToHex (lo % 256))

/-- A JSON string literal under the default ensure_ascii=True. -/
def jsonQuoteAscii (s : String) : String :=
  "\"" ++ joinAll (s.data.map escCharAscii) ++ "\""

/-!
The canonical serializer models json.dumps(obj, sort_keys=True,
separators=(",", ":"), ensure_ascii=False): item separator ",", key
separator ":", no other whitespace, keys of every mapping emitted in
sorted order. The library sorts a mapping's entries and then serializes
each value; since serializing a value does not depend on its position, the
functions below serialize the entries first and sort the resulting
(key, rendered value) pairs by the same stable key order, which yields the
identical output string and keeps the recursion structural.
-/

mutual

def serJson : Json → String
  | .null => "null"
  | .bool b => cond b "true" "false"
  | .num n => intDec n
  | .str s => jsonQuote s
  | .arr xs => "[" ++ joinSep "," (serArr xs) ++ "]"
  | .obj kvs =>
      "\x7b" ++
      joinSep "," ((sortByKey (serObj kvs)).map (fun kv => jsonQuote kv.1 ++ ":" ++ kv.2)) ++
      "\x7d"

def serArr : List Json → List String
  | [] => []
  | x :: xs => serJson x :: serArr xs

def serObj : List (String × Json) → List (String × String)
  | [] => []
  | (k, v) :: xs => (k, serJson v) :: serObj xs

end

/-! ### SHA-256 over byte lists

Models hashlib.sha256(data).hexdigest(). All 32-bit words are Nat values
kept below 2^32 by explicit reduction. -/

/-- Reduce modulo 2^32. -/
def w32 (x : Nat) : Nat := x % 4294967296

/-- Right rotation of a 32-bit word. -/
def rotr32 (x n : Nat) : Nat := w32 ((x >>> n) ||| (x <<< (32 - n)))

/-- The 64 SHA-256 round constants. -/
def shaK : List Nat :=
  [1116352408, 1899447441, 3049323471, 3921009573, 961987163, 1508970993,
   2453635748, 2870763221, 3624381080, 310598401, 607225278, 1426881987,
   1925078388, 2162078206, 2614888103, 3248222580, 3835390401, 4022224774,
   264347078, 604807628, 770255983, 1249150122, 1555081692, 1996064986,
   2554220882, 2821834349, 2952996808, 3210313671, 3336571891, 3584528711,
   113926993, 338241895, 666307205, 773529912, 1294757372, 1396182291,
   1695183700, 1986661051, 2177026350, 2456956037, 2730485921, 2820302411,
   3259730800, 3345764771, 3516065817, 3600352804, 4094571909, 275423344,
   430227734, 506948616, 659060556, 883997877, 958139571, 1322822218,
   1537002063, 1747873779, 1955562222, 2024104815, 2227730452, 2361852424,
   2428436474, 2756734187, 3204031479, 3329325298]

/-- The eight SHA-256 working registers. -/
structure ShaState where
  a : Nat
  b : Nat
  c : Nat
  d : Nat
  e : Nat
  f : Nat
  g : Nat
  h : Nat

/-- The SHA-256 state before the first block. -/
def shaH0 : ShaState :=
  ⟨1779033703, 3144134277, 1013904242, 2773480762, 1359893119, 2600822924, 528734635, 1541459225⟩

/-- Big-endian bytes of a value, fixed width. -/
def toBytesBE : Nat → Nat → List Nat
  | 0, _ => []
  | n + 1, x => toBytesBE n (x >>> 8) ++ [x % 256]

/-- SHA-256 padding: 0x80, zeros to 56 mod 64, then the bit length on
64 bits big-endian. -/
def padMessage (msg : List Nat) : List Nat :=
  let l := msg.length
  let k := (119 - (l % 64)) % 64
  msg ++ [0x80] ++ List.replicate k 0 ++ toBytesBE 8 ((8 * l) % 18446744073709551616)

/-- Split off the first n elements. -/
def splitAtN : Nat → List Nat → List Nat × List Nat
  | 0, l => ([], l)
  | _ + 1, [] => ([], [])
  | n + 1, x :: xs =>
      let p := splitAtN n xs
      (x :: p.1, p.2)

/-- Cut a byte list into 64-byte blocks; fuel bounds the block count. -/
def chunksOf64 : Nat → List Nat → List (List Nat)
  | 0, _ => []
  | _, [] => []
  | f + 1, l =>
      let p := splitAtN 64 l
      p.1 :: chunksOf64 f p.2

/-- Assemble big-endian 32-bit words from bytes. -/
def bytesToWords : List Nat → List Nat
  | b0 :: b1 :: b2 :: b3 :: rest =>
      (b0 <<< 24 ||| b1 <<< 16 ||| b2 <<< 8 ||| b3) :: bytesToWords rest
  | _ => []

/-- Message-schedule sigma-0. -/
def ssig0 (x : Nat) : Nat := rotr32 x 7 ^^^ rotr32 x 18 ^^^ (x >>> 3)

/-- Message-schedule sigma-1. -/
def ssig1 (x : Nat) : Nat := rotr32 x 17 ^^^ rotr32 x 19 ^^^ (x >>> 10)

/-- Extend the 16 block words to the 64 schedule words. -/
def extendWords : Nat → List Nat → List Nat
  | 0, w => w
  | n + 1, w =>
      let i := w.length
      let nw := w32 (w.getD (i - 16) 0 + ssig0 (w.getD (i - 15) 0) +
                     w.getD (i - 7) 0 + ssig1 (w.getD (i - 2) 0))
      extendWords n (w ++ [nw])

/-- Compression big sigma-0. -/
def bsig0 (x : Nat) : Nat := rotr32 x 2 ^^^ rotr32 x 13 ^^^ rotr32 x 22

/-- Compression big sigma-1. -/
def bsig1 (x : Nat) : Nat := rotr32 x 6 ^^^ rotr32 x 11 ^^^ rotr32 x 25

/-- One SHA-256 compression round, fed a constant and a schedule word. -/
def compressStep (st : ShaState) (kw : Nat × Nat) : ShaState :=
  let ch := (st.e &&& st.f) ^^^ ((4294967295 - st.e) &&& st.g)
  let maj := (st.a &&& st.b) ^^^ (st.a &&& st.c) ^^^ (st.b &&& st.c)
  let t1 := w32 (st.h + bsig1 st.e + ch + kw.1 + kw.2)
  let t2 := w32 (bsig0 st.a + maj)
  ⟨w32 (t1 + t2), st.a, st.b, st.c, w32 (st.d + t1), st.e, st.f, st.g⟩

/-- Process one 64-byte block. -/
def processChunk (st : ShaState) (chunk : List Nat) : ShaState :=
  let w := extendWords 48 (bytesToWords chunk)
  let f := (shaK.zip w).foldl compressStep st
  ⟨w32 (st.a + f.a), w32 (st.b + f.b), w32 (st.c + f.c), w32 (st.d + f.d),
   w32 (st.e + f.e), w32 (st.f + f.f), w32 (st.g + f.g), w32 (st.h + f.h)⟩

/-- SHA-256 digest of a byte list, rendered as 64 lowercase hex characters,
as hashlib.sha256(data).hexdigest() returns it. -/
def sha256_hex (msg : List Nat) : String :=
  let padded := padMessage msg
  let st := (chunksOf64 padded.length padded).foldl processChunk shaH0
  String.mk (([st.a, st.b, st.c, st.d, st.e, st.f, st.g, st.h].flatMap (toBytesBE 4)).flatMap byteToHex)

/-- UTF-8 bytes of one character. -/
def utf8Char (c : Char) : List Nat :=
  let n := c.toNat
  if n < 128 then [n]
  else if n < 2048 then [192 ||| (n >>> 6), 128 ||| (n &&& 63)]
  else if n < 65536 then [224 ||| (n >>> 12), 128 ||| ((n >>> 6) &&& 63), 128 ||| (n &&& 63)]
  else [240 ||| (n >>> 18), 128 ||| ((n >>> 12) &&& 63), 128 ||| ((n >>> 6) &&& 63), 128 ||| (n &&& 63)]

/-- Models str.encode("utf-8"). -/
def utf8Encode (s : String) : List Nat := s.data.flatMap utf8Char

/-! ### The artifact documents

Each record carries exactly the fields the two programs read. Fields the
programs access only through dict.get are Options (absent key reads as
none); fields they only ever index directly are plain values, restricting
the model to documents on which that indexing succeeds. -/

/-- One ACU record of the registry, as read: only its acu_id field. -/
structure AcUnit where
  acu_id : String
deriving DecidableEq

/-- The global registry document. -/
structure Registry where
  ac_units : List AcUnit
  total_acu_count : Option Int
  operating_mode : String
deriving DecidableEq

/-- The ACU index document: a mapping from ACU id to its entry. -/
abbrev Index := List (String × Json)

/-- One dependency edge; the JSON key "from" is a Lean keyword, hence the
trailing underscore on the field. -/
structure Edge where
  from_ : String
  to_ : String
deriving DecidableEq

/-- The dependency graph document. -/
structure Graph where
  nodes : List String
  edges : List Edge
deriving DecidableEq

/-- The version manifest document; every field of it the programs read is
read through dict.get somewhere, so all four are Options. -/
structure Manifest where
  registry_version : Option String
  registry_hash : Option String
  operating_mode : Option String
  freeze_mode : Option Bool
deriving DecidableEq

/-- The JSON identity of an ACU record. -/
def AcUnit.toJson (u : AcUnit) : Json := .obj [("acu_id", .str u.acu_id)]

/-- The JSON identity of the registry document. -/
def Registry.toJson (r : Registry) : Json :=
  .obj ([("ac_units", .arr (r.ac_units.map AcUnit.toJson)),
         ("operating_mode", .str r.operating_mode)] ++
        (match r.total_acu_count with
         | some n => [("total_acu_count", Json.num n)]
         | none => []))

/-- The JSON identity of the index document. -/
def indexToJson (i : Index) : Json := .obj i

/-- The JSON identity of one edge. -/
def Edge.to_Json (e : Edge) : Json := .obj [("from", .str e.from_), ("to", .str e.to_)]

/-- The JSON identity of the dependency graph document. -/
def Graph.toJson (g : Graph) : Json :=
  .obj [("nodes", .arr (g.nodes.map (fun s => Json.str s))),
        ("edges", .arr (g.edges.map Edge.to_Json))]

/-- Python set equality of the sets of elements of two lists. -/
def setEqb (a b : List String) : Bool :=
  a.all (fun x => b.contains x) && b.all (fun x => a.contains x)

/-- Python truthiness test `not x` for an optional string: missing or empty
reads as falsy. -/
def pyFalsyStr : Option String → Bool
  | none => true
  | some s => s == ""

end HG

namespace HG.CompileValidator

open HG

/-- canonical_json of compile_validator.py: json.dumps(obj, sort_keys=True,
separators=(",", ":"), ensure_ascii=False). -/
def canonical_json (obj : Json) : String := serJson obj

/-- compute_registry_hash of compile_validator.py: SHA-256 hex digest of the
concatenated canonical serializations, in the order registry, index, graph. -/
def compute_registry_hash (registry : Json) (acu_index : Json) (dependency_graph : Json) : String :=
  let combined := canonical_json registry ++ canonical_json acu_index ++ canonical_json dependency_graph
  sha256_hex (utf8Encode combined)

/-- The captured result of the git diff subprocess when it does not raise:
its return code (ignored by the program, which passes check=False) and its
stdout text. -/
structure GitRun where
  returncode : Int
  stdout : String
deriving DecidableEq

/-- The protected-file list of enforce_freeze_mode. -/
def protected_files : List String :=
  ["03_canonical_registry/global_registry.json",
   "03_canonical_registry/acu_index.json",
   "03_canonical_registry/dependency_graph.json",
   "03_canonical_registry/version_manifest.json"]

/-- One structured status object printed by the validator, together with the
process exit code. -/
structure Output where
  status : String
  error : Option String
  computed_hash : Option String
  manifest_hash : Option String
  exitCode : Nat
deriving DecidableEq

/-- enforce_freeze_mode of compile_validator.py. The git parameter is the
outcome of the subprocess.run call: the error branch is the raised
exception caught by the except clause; the ok branch carries the process
result, whose return code the program never inspects (check=False). A some
result is a printed INVALID object with exit 1; none means the check fell
through and main continues. -/
def enforce_freeze_mode (manifest : Manifest) (git : Except Unit GitRun) : Option Output :=
  if !(manifest.freeze_mode.getD false) then none
  else
    match git with
    | .error _ => some ⟨"INVALID", some "Freeze mode: unable to inspect git diff.", none, none, 1⟩
    | .ok result =>
        let changed_files := pySplitNl (pyStrip result.stdout)
        match protected_files.find? (fun file => changed_files.contains file) with
        | some file =>
            some ⟨"INVALID",
                  some ("Freeze mode active: modification detected in " ++ file ++ "."),
                  none, none, 1⟩
        | none => none

/-- validate_acu_completeness of compile_validator.py. The two id
collections are Python sets; they are modelled by deduplicated lists
compared as sets, and len of a set is the deduplicated length. The count
comparison is Python's len(...) != registry.get("total_acu_count"), which
is also unequal when the key is missing. -/
def validate_acu_completeness (registry : Registry) (acu_index : Index) : Bool × Option String :=
  let registry_ids := (registry.ac_units.map AcUnit.acu_id).dedup
  let index_ids := (acu_index.map Prod.fst).dedup
  if !setEqb registry_ids index_ids then
    (false, some "ACU ID mismatch between registry and index.")
  else if some (registry_ids.length : Int) ≠ registry.total_acu_count then
    (false, some "ACU count mismatch in registry metadata.")
  else (true, none)

/-- The in_degree and adj dicts built by validate_dag, as total functions;
the program populates them over the node set and then adjusts them per
edge, and only ever queries them at declared nodes. -/
def buildDegAdj (edges : List Edge) : (String → Int) × (String → List String) :=
  edges.foldl
    (fun p e =>
      (fun x => if x = e.to_ then p.1 x + 1 else p.1 x,
       fun x => if x = e.from_ then p.2 x ++ [e.to_] else p.2 x))
    (fun _ => 0, fun _ => [])

/-- The inner neighbor loop of validate_dag's while loop: decrement each
neighbor's in-degree in turn and append it to the queue when the new value
is exactly zero. -/
def processNeighbors (neighbors : List String) (inDeg : String → Int) (queue : List String) :
    (String → Int) × List String :=
  match neighbors with
  | [] => (inDeg, queue)
  | nb :: rest =>
      let d := fun x => if x = nb then inDeg x - 1 else inDeg x
      let q := if d nb = 0 then queue ++ [nb] else queue
      processNeighbors rest d q

/-- The while loop of validate_dag (Kahn's algorithm): pop the queue head,
count it visited, process its neighbors. The fuel argument makes the
recursion structural; validate_dag passes enough fuel for the loop to
drain the queue. -/
def kahnLoop (adj : String → List String) : Nat → List String → (String → Int) → Nat → Nat
  | 0, _, _, visited => visited
  | _ + 1, [], _, visited => visited
  | fuel + 1, node :: rest, inDeg, visited =>
      let p := processNeighbors (adj node) inDeg rest
      kahnLoop adj fuel p.2 p.1 (visited + 1)

/-- validate_dag of compile_validator.py: reject any edge with an endpoint
outside the declared node set, then run Kahn's algorithm and report a cycle
when the visited count falls short of the node count. -/
def validate_dag (dependency_graph : Graph) : Bool × Option String :=
  let nodes := dependency_graph.nodes.dedup
  let edges := dependency_graph.edges
  if edges.any (fun e => !nodes.contains e.from_ || !nodes.contains e.to_) then
    (false, some "Dependency graph contains undefined nodes.")
  else
    let p := buildDegAdj edges
    let queue := nodes.filter (fun n => p.1 n == 0)
    let visited := kahnLoop p.2 (nodes.length + edges.length + 1) queue p.1 0
    if visited ≠ nodes.length then (false, some "Dependency graph contains a cycle.")
    else (true, none)

/-- validate_operating_mode of compile_validator.py; the manifest field is
indexed directly, so a missing key is the none branch (an uncaught
KeyError in the program). -/
def validate_operating_mode (manifest : Manifest) (registry : Registry) :
    Option (Bool × Option String) :=
  match manifest.operating_mode with
  | none => none
  | some m =>
      if m ≠ "STRUCTURAL_ONLY" then some (false, some "Operating mode mismatch in manifest.")
      else if registry.operating_mode ≠ "STRUCTURAL_ONLY" then
        some (false, some "Operating mode mismatch in registry.")
      else some (true, none)

/-- main of compile_validator.py, after the four artifacts loaded: freeze
enforcement, the three structural checks in order, then the hash
comparison. A some value is the single printed status object with its exit
code; none is an uncaught KeyError on a directly indexed manifest field. -/
def main (registry : Registry) (acu_index : Index) (dependency_graph : Graph)
    (manifest : Manifest) (git : Except Unit GitRun) : Option Output :=
  match enforce_freeze_mode manifest git with
  | some out => some out
  | none =>
    match validate_acu_completeness registry acu_index with
    | (false, error) => some ⟨"INVALID", error, none, none, 1⟩
    | (true, _) =>
      match validate_dag dependency_graph with
      | (false, error) => some ⟨"INVALID", error, none, none, 1⟩
      | (true, _) =>
        match validate_operating_mode manifest registry with
        | none => none
        | some (false, error) => some ⟨"INVALID", error, none, none, 1⟩
        | some (true, _) =>
          match manifest.registry_hash with
          | none => none
          | some mh =>
            let computed_hash :=
              compute_registry_hash registry.toJson (indexToJson acu_index) dependency_graph.toJson
            if computed_hash ≠ mh then
              some ⟨"INVALID", some "Registry hash mismatch.", some computed_hash, some mh, 1⟩
            else some ⟨"VALID", none, none, none, 0⟩

end HG.CompileValidator

namespace HG.SnapshotGenerator

open HG

/-- canonical_json of snapshot_generator.py; textually the same call as the
validator's. -/
def canonical_json (obj : Json) : String := serJson obj

/-- compute_registry_hash of snapshot_generator.py, in its explicit order
registry, acu_index, dependency_graph. -/
def compute_registry_hash (registry : Json) (acu_index : Json) (dependency_graph : Json) : String :=
  let combined := canonical_json registry ++ canonical_json acu_index ++ canonical_json dependency_graph
  sha256_hex (utf8Encode combined)

/-- The snapshot directory contents, as path-to-content bindings; a write
prepends, a read takes the newest binding. -/
abbrev FS := List (String × String)

/-- Content of a file, newest write first. -/
def fsGet (fs : FS) (path : String) : Option String :=
  (fs.find? (fun kv => kv.1 == path)).map Prod.snd

/-- Overwrite a file. -/
def fsWrite (fs : FS) (path content : String) : FS := (path, content) :: fs

/-- os.path.exists on the modelled directory. -/
def fsExists (fs : FS) (path : String) : Bool := (fsGet fs path).isSome

/-- The rolling snapshot path constant. -/
def SNAPSHOT_PATH : String := "snapshots/current_snapshot.json"

/-- The archival path f-string keyed by registry_version. -/
def versionedPath (registry_version : String) : String :=
  "snapshots/registry_" ++ registry_version ++ ".json"

/-- Rendering of an optional string value as JSON under ensure_ascii=True;
the manifest.get("operating_mode") value is None when absent and json.dump
writes that as null. -/
def jsonOptStrAscii : Option String → String
  | none => "null"
  | some s => jsonQuoteAscii s

/-- Models json.dump(snapshot, f, indent=4) for the rolling payload dict
built in main: its two keys in insertion order, four-space indent, the
default separators and ensure_ascii. -/
def renderRolling (registry_hash : String) (operating_mode : Option String) : String :=
  "\x7b\n    \"registry_hash\": " ++ jsonQuoteAscii registry_hash ++
  ",\n    \"operating_mode\": " ++ jsonOptStrAscii operating_mode ++ "\n\x7d"

/-- Models json.dump(archival_snapshot, f, indent=4) for the archival
payload dict built in main. -/
def renderArchival (registry_version registry_hash : String) : String :=
  "\x7b\n    \"registry_version\": " ++ jsonQuoteAscii registry_version ++
  ",\n    \"registry_hash\": " ++ jsonQuoteAscii registry_hash ++ "\n\x7d"

/-- The observable outcome of a snapshot generator run: the final snapshot
directory, the exit code (0 for the success path), and the printed lines. -/
structure SnapResult where
  fs : FS
  exitCode : Nat
  messages : List String
deriving DecidableEq

/-- main of snapshot_generator.py, after the four artifacts loaded: compute
the hash, require the manifest version and hash fields truthy, compare the
hashes, write the rolling snapshot, then refuse or write the archival
snapshot. -/
def main (registry : Registry) (acu_index : Index) (dependency_graph : Graph)
    (manifest : Manifest) (fs0 : FS) : SnapResult :=
  let computed_hash :=
    compute_registry_hash registry.toJson (indexToJson acu_index) dependency_graph.toJson
  let registry_version := manifest.registry_version
  let manifest_hash := manifest.registry_hash
  let operating_mode := manifest.operating_mode
  if pyFalsyStr registry_version || pyFalsyStr manifest_hash then
    ⟨fs0, 1, ["Manifest missing registry_version or registry_hash. Aborting."]⟩
  else
    let rv := registry_version.getD ""
    let mh := manifest_hash.getD ""
    if computed_hash ≠ mh then
      ⟨fs0, 1, ["Registry hash does not match manifest registry_hash. Aborting.",
                "Computed: " ++ computed_hash, "Manifest: " ++ mh]⟩
    else
      let fs1 := fsWrite fs0 SNAPSHOT_PATH (renderRolling computed_hash operating_mode)
      let vp := versionedPath rv
      if fsExists fs1 vp then
        ⟨fs1, 1, ["Snapshot for version " ++ rv ++ " already exists. Immutable lock enforced."]⟩
      else
        ⟨fsWrite fs1 vp (renderArchival rv computed_hash), 0,
         ["Snapshot generated successfully.", "Registry SHA256: " ++ computed_hash]⟩

end HG.SnapshotGenerator

namespace HG

/-! ### Specification-side notions used to state the serializer claims -/

/-- Whitespace-freedom of a rendered string. -/
def strNoWs (s : String) : Bool := s.data.all (fun c => !pyIsSpace c)

/-- Every character is a lowercase hexadecimal digit. -/
def hexLowerB (s : String) : Bool :=
  s.data.all (fun c => (48 ≤ c.toNat && c.toNat ≤ 57) || (97 ≤ c.toNat && c.toNat ≤ 102))

/-- Consecutive-pairs key-sortedness of a keyed list. -/
def keySortedB {α : Type} : List (String × α) → Bool
  | [] => true
  | [_] => true
  | p :: q :: rest => strLeB p.1 q.1 && keySortedB (q :: rest)

/-!
Map-order normal form: two documents are equal as nested
maps/sequences/scalars up to the order in which their mappings list their
keys exactly when they share this normal form, which recursively reorders
every mapping into the canonical stable key order and leaves everything
else untouched.
-/

mutual

def normJson : Json → Json
  | .null => .null
  | .bool b => .bool b
  | .num n => .num n
  | .str s => .str s
  | .arr xs => .arr (normArr xs)
  | .obj kvs => .obj (sortByKey (normObj kvs))

def normArr : List Json → List Json
  | [] => []
  | x :: xs => normJson x :: normArr xs

def normObj : List (String × Json) → List (String × Json)
  | [] => []
  | (k, v) :: xs => (k, normJson v) :: normObj xs

end

/-!
Whitespace-freedom of a document: no string scalar and no mapping key
contains a whitespace character, so any whitespace in the rendered output
would have to be incidental to the serializer itself.
-/

mutual

def jsonNoWs : Json → Bool
  | .null => true
  | .bool _ => true
  | .num _ => true
  | .str s => strNoWs s
  | .arr xs => arrNoWs xs
  | .obj kvs => objNoWs kvs

def arrNoWs : List Json → Bool
  | [] => true
  | x :: xs => jsonNoWs x && arrNoWs xs

def objNoWs : List (String × Json) → Bool
  | [] => true
  | (k, v) :: xs => strNoWs k && jsonNoWs v && objNoWs xs

end

/-! ### Shared concrete fixtures

A small well-formed artifact family used by several concrete runs below:
two ACUs, a matching index, a two-node graph, and manifests pointing at
the hash the programs themselves compute for these documents. -/

/-- A registry of two ACUs with a correct declared count. -/
def sampleRegistry : Registry := ⟨[⟨"ACU-001"⟩, ⟨"ACU-002"⟩], some 2, "STRUCTURAL_ONLY"⟩

/-- The index listing exactly the sample registry ids. -/
def sampleIndex : Index := [("ACU-001", .obj [("title", .str "a")]), ("ACU-002", .null)]

/-- An acyclic two-node graph over the sample ids. -/
def sampleGraph : Graph := ⟨["ACU-001", "ACU-002"], [⟨"ACU-001", "ACU-002"⟩]⟩

/-- A cyclic two-node graph over the sample ids. -/
def sampleGraphCyclic : Graph :=
  ⟨["ACU-001", "ACU-002"], [⟨"ACU-001", "ACU-002"⟩, ⟨"ACU-002", "ACU-001"⟩]⟩

/-- The digest both programs compute for the sample documents with the
acyclic graph. -/
def sampleHash : String :=
  CompileValidator.compute_registry_hash sampleRegistry.toJson (indexToJson sampleIndex)
    sampleGraph.toJson

/-- The digest both programs compute for the sample documents with the
cyclic graph. -/
def sampleHashCyclic : String :=
  CompileValidator.compute_registry_hash sampleRegistry.toJson (indexToJson sampleIndex)
    sampleGraphCyclic.toJson

/-- A manifest for the sample documents with freeze mode on. -/
def sampleManifestFreeze : Manifest := ⟨some "v1", some sampleHash, some "STRUCTURAL_ONLY", some true⟩

/-- A manifest for the sample documents with the cyclic graph, freeze mode
on. -/
def sampleManifestCyclic : Manifest :=
  ⟨some "v1", some sampleHashCyclic, some "STRUCTURAL_ONLY", some true⟩

end HG

namespace HG

/-! ### Specification-side notions for the DAG check

The edge relation and acyclicity below state what the DAG check is
supposed to decide; the remaining quantities are ghost state for reasoning
about the Kahn loop: the in-degree remaining once the done nodes'
out-edges are consumed, the termination measure, the strict positional
order inside the visit list, and the loop invariant tying them together. -/

/-- The step relation of a dependency graph document: an edge from a to b. -/
def edgeRel (edges : List Edge) (a b : String) : Prop :=
  ∃ e ∈ edges, e.from_ = a ∧ e.to_ = b

/-- Acyclicity: no node reaches itself through a nonempty chain of edges. -/
def GraphAcyclic (g : Graph) : Prop :=
  ¬ ∃ x, Relation.TransGen (edgeRel g.edges) x x

/-- Number of in-edges of x whose source has not been dequeued yet. -/
def inRemaining (E : List Edge) (done : List String) (x : String) : Int :=
  (E.countP (fun e => e.to_ == x && !(done.contains e.from_)) : Int)

/-- Termination measure of the Kahn loop: queue length plus the total
nonnegative in-degree mass over the node set. -/
def kahnMeasure (nds : List String) (q : List String) (d : String → Int) : Nat :=
  q.length + (nds.map (fun x => (d x).toNat)).sum

/-- a occupies a strictly earlier position than b in the list l. -/
def precedes (l : List String) (a b : String) : Prop :=
  ∃ i j : Nat, ∃ hi : i < l.length, ∃ hj : j < l.length,
    i < j ∧ l.get ⟨i, hi⟩ = a ∧ l.get ⟨j, hj⟩ = b

/-- The invariant of the Kahn while loop at a loop head: done are the
dequeued nodes in order, q the pending queue, d the current in_degree
table. It says the visited and pending nodes are distinct declared nodes,
d records the in-degree remaining outside done, the queue holds exactly
the unvisited nodes of remaining in-degree zero, and done is topologically
sorted: every edge into a visited node comes from an earlier visited
node. -/
def KahnInv (E : List Edge) (nds : List String) (done q : List String) (d : String → Int) : Prop :=
  (done ++ q).Nodup ∧
  (∀ x ∈ done ++ q, x ∈ nds) ∧
  (∀ x, d x = inRemaining E done x) ∧
  (∀ x, x ∈ q ↔ (x ∈ nds ∧ x ∉ done ∧ d x = 0)) ∧
  (∀ e ∈ E, e.to_ ∈ done → precedes done e.from_ e.to_)

end HG

namespace HG

/-- Sanity check: the canonical serializer against a hand-computed
json.dumps output with sorted keys and tight separators. -/
theorem canonical_json_sample :
    CompileValidator.canonical_json
      (.obj [("b", .num 1), ("a", .arr [.bool true, .null, .str "x"]), ("c", .num (-2))]) =
    "\x7b\"a\":[true,null,\"x\"],\"b\":1,\"c\":-2\x7d" := by decide

set_option maxRecDepth 8000 in
/-- Sanity check: the SHA-256 model against the FIPS 180 test vector for
the message abc. -/
theorem sha256_abc :
    sha256_hex (utf8Encode "abc") =
    "ba7816bf8f01cfea414140de5dae2223b00361a396177a9cb410ff61f20015ad" := by decide

/-- Sanity check: a two-node cycle is caught by validate_dag. -/
theorem validate_dag_cycle_sample :
    CompileValidator.validate_dag (Graph.mk ["A", "B"] [Edge.mk "A" "B", Edge.mk "B" "A"]) =
    (false, some "Dependency graph contains a cycle.") := by decide

/-- Sanity check: a two-node chain passes validate_dag. -/
theorem validate_dag_chain_sample :
    CompileValidator.validate_dag (Graph.mk ["A", "B"] [Edge.mk "A" "B"]) = (true, none) := by decide

/-- Sanity check: an edge to an undeclared node is rejected. -/
theorem validate_dag_undeclared_sample :
    CompileValidator.validate_dag (Graph.mk ["A"] [Edge.mk "A" "Z"]) =
    (false, some "Dependency graph contains undefined nodes.") := by decide

end HG

namespace HG

/-! ### Order lemmas for the stable key sort -/

theorem charsLe_total : ∀ a b : List Char, charsLe a b = false → charsLe b a = true := by
  intro a
  induction a with
  | nil => intro b h; simp [charsLe] at h
  | cons x xs ih =>
    intro b h
    cases b with
    | nil => simp [charsLe]
    | cons y ys =>
      by_cases h1 : x.toNat < y.toNat
      · simp [charsLe, h1] at h
      · by_cases h2 : y.toNat < x.toNat
        · simp [charsLe, h1, h2]
        · simp only [charsLe, if_neg h1, if_neg h2] at h
          simp only [charsLe, if_neg h2, if_neg h1]
          exact ih ys h

theorem strLeB_total (a b : String) (h : strLeB a b = false) : strLeB b a = true :=
  charsLe_total a.data b.data h

theorem keySortedB_cons {α : Type} (p q : String × α) (l : List (String × α))
    (h : keySortedB (p :: q :: l) = true) :
    strLeB p.1 q.1 = true ∧ keySortedB (q :: l) = true := by
  simpa [keySortedB, Bool.and_eq_true] using h

theorem keySortedB_tail {α : Type} (p : String × α) (l : List (String × α))
    (h : keySortedB (p :: l) = true) : keySortedB l = true := by
  cases l with
  | nil => rfl
  | cons q rest => exact (keySortedB_cons p q rest h).2

theorem insertByKey_keySortedB {α : Type} (p : String × α) (l : List (String × α))
    (h : keySortedB l = true) : keySortedB (insertByKey p l) = true := by
  induction l with
  | nil => simp [insertByKey, keySortedB]
  | cons q rest ih =>
    by_cases hle : strLeB p.1 q.1 = true
    · simp only [insertByKey, if_pos hle]
      cases rest with
      | nil => simp [keySortedB, hle]
      | cons r rs =>
        have h2 := keySortedB_cons q r rs h
        simp [keySortedB, hle, h2.1, h2.2]
    · have hge : strLeB q.1 p.1 = true := strLeB_total _ _ (by simpa using hle)
      simp only [insertByKey, if_neg hle]
      cases rest with
      | nil => simp [insertByKey, keySortedB, hge]
      | cons r rs =>
        have h2 := keySortedB_cons q r rs h
        have hins := ih h2.2
        by_cases hpr : strLeB p.1 r.1 = true
        · simp only [insertByKey, if_pos hpr] at hins ⊢
          simp only [keySortedB, Bool.and_eq_true] at hins ⊢
          exact ⟨hge, hins⟩
        · simp only [insertByKey, if_neg hpr] at hins ⊢
          simp only [keySortedB, Bool.and_eq_true]
          exact ⟨h2.1, hins⟩

theorem sortByKey_keySortedB {α : Type} (l : List (String × α)) :
    keySortedB (sortByKey l) = true := by
  induction l with
  | nil => rfl
  | cons p rest ih => exact insertByKey_keySortedB p (sortByKey rest) ih

theorem sortByKey_of_keySortedB {α : Type} :
    ∀ l : List (String × α), keySortedB l = true → sortByKey l = l := by
  intro l
  induction l with
  | nil => intro _; rfl
  | cons p rest ih =>
    intro h
    have htail := keySortedB_tail p rest h
    have : sortByKey (p :: rest) = insertByKey p rest := by
      simp [sortByKey, ih htail]
    rw [this]
    cases rest with
    | nil => rfl
    | cons q rs =>
      have hpq := (keySortedB_cons p q rs h).1
      simp [insertByKey, hpq]

theorem sortByKey_idem {α : Type} (l : List (String × α)) :
    sortByKey (sortByKey l) = sortByKey l :=
  sortByKey_of_keySortedB _ (sortByKey_keySortedB l)

theorem insertByKey_map_snd {α β : Type} (f : α → β) (p : String × α) :
    ∀ l : List (String × α),
      insertByKey (p.1, f p.2) (l.map (fun q => (q.1, f q.2))) =
      (insertByKey p l).map (fun q => (q.1, f q.2)) := by
  intro l
  induction l with
  | nil => rfl
  | cons q rest ih =>
    by_cases h : strLeB p.1 q.1 = true
    · simp [insertByKey, h]
    · simp [insertByKey, h, ih]

theorem sortByKey_map_snd {α β : Type} (f : α → β) :
    ∀ l : List (String × α),
      sortByKey (l.map (fun q => (q.1, f q.2))) = (sortByKey l).map (fun q => (q.1, f q.2)) := by
  intro l
  induction l with
  | nil => rfl
  | cons p rest ih => simp [sortByKey, ih, insertByKey_map_snd]

theorem insertByKey_mem {α : Type} (q p : String × α) :
    ∀ l : List (String × α), q ∈ insertByKey p l → q = p ∨ q ∈ l := by
  intro l
  induction l with
  | nil => intro h; simpa [insertByKey] using h
  | cons r rest ih =>
    intro h
    by_cases hle : strLeB p.1 r.1 = true
    · simp only [insertByKey, if_pos hle] at h
      rcases List.mem_cons.mp h with h | h
      · exact Or.inl h
      · exact Or.inr h
    · simp only [insertByKey, if_neg hle, List.mem_cons] at h
      rcases h with h | h
      · right; simp [h]
      · rcases ih h with h | h
        · left; exact h
        · right; simp [h]

theorem sortByKey_mem {α : Type} (q : String × α) :
    ∀ l : List (String × α), q ∈ sortByKey l → q ∈ l := by
  intro l
  induction l with
  | nil => intro h; simp [sortByKey] at h
  | cons p rest ih =>
    intro h
    rcases insertByKey_mem q p (sortByKey rest) h with h | h
    · simp [h]
    · exact List.mem_cons_of_mem _ (ih h)

/-! ### The serializer respects the map-order normal form -/

theorem serObj_eq_map : ∀ l : List (String × Json),
    serObj l = l.map (fun q => (q.1, serJson q.2)) := by
  intro l
  induction l with
  | nil => rfl
  | cons q rest ih => cases q with | mk k v => simp [serObj, ih]

theorem normObj_eq_map : ∀ l : List (String × Json),
    normObj l = l.map (fun q => (q.1, normJson q.2)) := by
  intro l
  induction l with
  | nil => rfl
  | cons q rest ih => cases q with | mk k v => simp [normObj, ih]

theorem serObj_sortByKey (l : List (String × Json)) :
    serObj (sortByKey l) = sortByKey (serObj l) := by
  rw [serObj_eq_map, serObj_eq_map, sortByKey_map_snd]

mutual

theorem serJson_norm : ∀ j : Json, serJson (normJson j) = serJson j
  | .null => rfl
  | .bool _ => rfl
  | .num _ => rfl
  | .str _ => rfl
  | .arr xs => by simp only [normJson, serJson, serArr_norm xs]
  | .obj kvs => by
      simp only [normJson, serJson]
      rw [serObj_sortByKey, sortByKey_idem, serObj_norm kvs]

theorem serArr_norm : ∀ xs : List Json, serArr (normArr xs) = serArr xs
  | [] => rfl
  | x :: xs => by simp only [normArr, serArr, serJson_norm x, serArr_norm xs]

theorem serObj_norm : ∀ kvs : List (String × Json), serObj (normObj kvs) = serObj kvs
  | [] => rfl
  | (k, v) :: xs => by simp only [normObj, serObj, serJson_norm v, serObj_norm xs]

end

end HG

namespace HG

/-! ### Whitespace-freedom of the canonical rendering -/

theorem strData_append (a b : String) : (a ++ b).data = a.data ++ b.data := by
  cases a; cases b; rfl

theorem strNoWs_append (a b : String) : strNoWs (a ++ b) = (strNoWs a && strNoWs b) := by
  simp [strNoWs, strData_append, List.all_append]

theorem strNoWs_joinAll (L : List String) (h : ∀ x ∈ L, strNoWs x = true) :
    strNoWs (joinAll L) = true := by
  induction L with
  | nil => rfl
  | cons x xs ih =>
    simp only [joinAll]
    rw [strNoWs_append]
    simp [h x (by simp), ih (fun z hz => h z (by simp [hz]))]

theorem strNoWs_joinSep (L : List String) (h : ∀ x ∈ L, strNoWs x = true) :
    strNoWs (joinSep "," L) = true := by
  induction L with
  | nil => rfl
  | cons x xs ih =>
    cases xs with
    | nil => exact h x (by simp)
    | cons y ys =>
      simp only [joinSep]
      rw [strNoWs_append, strNoWs_append]
      have hx := h x (by simp)
      have hc : strNoWs "," = true := by decide
      have hrest := ih (fun z hz => h z (by simp [hz]))
      simp only [joinSep] at hrest
      simp [hx, hc, hrest]

theorem digit_not_space (c : Char) (h48 : 48 ≤ c.toNat) (h57 : c.toNat ≤ 57) :
    pyIsSpace c = false := by
  simp only [pyIsSpace, Bool.or_eq_false_iff, beq_eq_false_iff_ne, ne_eq]
  omega

theorem hexNibble_not_space (n : Nat) (h : n < 16) : pyIsSpace (hexNibble n) = false := by
  interval_cases n <;> decide

theorem hexNibble_hexLower (n : Nat) (h : n < 16) :
    ((48 ≤ (hexNibble n).toNat && (hexNibble n).toNat ≤ 57) ||
     (97 ≤ (hexNibble n).toNat && (hexNibble n).toNat ≤ 102)) = true := by
  interval_cases n <;> decide

theorem byteToHex_not_space (b : Nat) (h : b < 256) :
    ∀ c ∈ byteToHex b, pyIsSpace c = false := by
  intro c hc
  simp only [byteToHex, List.mem_cons, List.not_mem_nil, or_false] at hc
  rcases hc with rfl | rfl
  · exact hexNibble_not_space _ (by omega)
  · exact hexNibble_not_space _ (by omega)

theorem natDecAux_digit : ∀ f n : Nat, ∀ c ∈ natDecAux f n, 48 ≤ c.toNat ∧ c.toNat ≤ 57 := by
  intro f
  induction f with
  | zero => intro n c hc; simp [natDecAux] at hc
  | succ k ih =>
    intro n c hc
    match n with
    | 0 => simp [natDecAux] at hc
    | m + 1 =>
      rw [show natDecAux (k + 1) (m + 1) =
            natDecAux k ((m + 1) / 10) ++ [Char.ofNat (48 + (m + 1) % 10)] from rfl] at hc
      rcases List.mem_append.mp hc with h | h
      · exact ih _ c h
      · have hc2 : c = Char.ofNat (48 + (m + 1) % 10) := by simpa using h
        rw [hc2]
        have hr : (m + 1) % 10 < 10 := Nat.mod_lt _ (by omega)
        set r := (m + 1) % 10 with hrdef
        interval_cases r <;> decide

theorem natDec_noWs (n : Nat) : strNoWs (natDec n) = true := by
  by_cases h : n = 0
  · subst h; decide
  · simp only [natDec, if_neg h, strNoWs, List.all_eq_true]
    intro c hc
    have hd := natDecAux_digit (n + 1) n c hc
    simp [digit_not_space c hd.1 hd.2]

theorem intDec_noWs (n : Int) : strNoWs (intDec n) = true := by
  cases n with
  | ofNat m => exact natDec_noWs m
  | negSucc m =>
    simp only [intDec]
    rw [strNoWs_append]
    have h1 : strNoWs "-" = true := by decide
    simp [h1, natDec_noWs]

theorem escChar_noWs (c : Char) (h : pyIsSpace c = false) : strNoWs (escChar c) = true := by
  simp only [escChar]
  split_ifs with h1 h2 h3 h4 h5 h6 h7 h8
  · decide
  · decide
  · decide
  · decide
  · decide
  · decide
  · decide
  · rw [strNoWs_append]
    have hq : strNoWs "\\u00" = true := by decide
    have hh : strNoWs (String.mk (byteToHex c.toNat)) = true := by
      simp only [strNoWs, List.all_eq_true]
      intro x hx
      simp [byteToHex_not_space c.toNat (by omega) x hx]
    simp [hq, hh]
  · simp [strNoWs, String.singleton, h]

theorem jsonQuote_noWs (s : String) (h : strNoWs s = true) : strNoWs (jsonQuote s) = true := by
  simp only [jsonQuote]
  rw [strNoWs_append, strNoWs_append]
  have hq : strNoWs "\"" = true := by decide
  have hj : strNoWs (joinAll (s.data.map escChar)) = true := by
    apply strNoWs_joinAll
    intro x hx
    rcases List.mem_map.mp hx with ⟨c, hc, rfl⟩
    simp only [strNoWs, List.all_eq_true] at h
    have := h c hc
    exact escChar_noWs c (by simpa using this)
  simp [hq, hj]

mutual

theorem serJson_noWs : ∀ j : Json, jsonNoWs j = true → strNoWs (serJson j) = true
  | .null, _ => by decide
  | .bool b, _ => by cases b <;> decide
  | .num n, _ => intDec_noWs n
  | .str s, h => jsonQuote_noWs s (by simpa [jsonNoWs] using h)
  | .arr xs, h => by
      simp only [serJson]
      rw [strNoWs_append, strNoWs_append]
      have hj := strNoWs_joinSep (serArr xs) (serArr_noWs xs (by simpa [jsonNoWs] using h))
      have l1 : strNoWs "[" = true := by decide
      have l2 : strNoWs "]" = true := by decide
      simp [hj, l1, l2]
  | .obj kvs, h => by
      simp only [serJson]
      rw [strNoWs_append, strNoWs_append]
      have hmem : ∀ x ∈ (sortByKey (serObj kvs)).map (fun kv => jsonQuote kv.1 ++ ":" ++ kv.2),
          strNoWs x = true := by
        intro x hx
        rcases List.mem_map.mp hx with ⟨kv, hkv, rfl⟩
        have hkv2 := sortByKey_mem kv (serObj kvs) hkv
        have hp := serObj_noWs kvs (by simpa [jsonNoWs] using h) kv hkv2
        rw [strNoWs_append, strNoWs_append]
        have hq := jsonQuote_noWs kv.1 hp.1
        have hcolon : strNoWs ":" = true := by decide
        simp [hq, hcolon, hp.2]
      have hj := strNoWs_joinSep _ hmem
      have l1 : strNoWs "\x7b" = true := by decide
      have l2 : strNoWs "\x7d" = true := by decide
      simp [hj, l1, l2]

theorem serArr_noWs : ∀ xs : List Json, arrNoWs xs = true → ∀ s ∈ serArr xs, strNoWs s = true
  | [], _ => by intro s hs; simp [serArr] at hs
  | x :: xs, h => by
      simp only [serArr]
      intro s hs
      have hh : jsonNoWs x = true ∧ arrNoWs xs = true := by
        simpa [arrNoWs, Bool.and_eq_true] using h
      rcases List.mem_cons.mp hs with rfl | hs
      · exact serJson_noWs x hh.1
      · exact serArr_noWs xs hh.2 s hs

theorem serObj_noWs : ∀ kvs : List (String × Json), objNoWs kvs = true →
    ∀ p ∈ serObj kvs, strNoWs p.1 = true ∧ strNoWs p.2 = true
  | [], _ => by intro p hp; simp [serObj] at hp
  | (k, v) :: xs, h => by
      simp only [serObj]
      intro p hp
      have hh : strNoWs k = true ∧ jsonNoWs v = true ∧ objNoWs xs = true := by
        simpa [objNoWs, Bool.and_eq_true, and_assoc] using h
      rcases List.mem_cons.mp hp with rfl | hp
      · exact ⟨hh.1, serJson_noWs v hh.2.1⟩
      · exact serObj_noWs xs hh.2.2 p hp

end

/-! ### Hex shape of the digest -/

theorem toBytesBE_lt : ∀ n x : Nat, ∀ b ∈ toBytesBE n x, b < 256 := by
  intro n
  induction n with
  | zero => intro x b hb; simp [toBytesBE] at hb
  | succ k ih =>
    intro x b hb
    simp only [toBytesBE] at hb
    rcases List.mem_append.mp hb with h | h
    · exact ih _ b h
    · have : b = x % 256 := by simpa using h
      omega

theorem hexLowerB_ofBytes (bs : List Nat) (h : ∀ b ∈ bs, b < 256) :
    hexLowerB (String.mk (bs.flatMap byteToHex)) = true := by
  simp only [hexLowerB, List.all_eq_true]
  intro c hc
  rcases List.mem_flatMap.mp hc with ⟨b, hb, hcb⟩
  have hblt := h b hb
  simp only [byteToHex, List.mem_cons, List.not_mem_nil, or_false] at hcb
  rcases hcb with rfl | rfl
  · exact hexNibble_hexLower _ (by omega)
  · exact hexNibble_hexLower _ (by omega)

theorem sha256_hex_hexLower (msg : List Nat) : hexLowerB (sha256_hex msg) = true := by
  apply hexLowerB_ofBytes
  intro b hb
  rcases List.mem_flatMap.mp hb with ⟨w, _, hbw⟩
  exact toBytesBE_lt 4 w b hbw

/-! ### Claims about the serializer and the hash engine -/

/-- C4: the validator's hash computation and the snapshot generator's hash
computation are the same function: on every triple of documents both
serialize canonically, concatenate in the fixed order registry, index,
graph, and produce the identical SHA-256 digest, rendered as lowercase
hex. -/
theorem C4_hash_functions_identical (r i g : Json) :
    CompileValidator.compute_registry_hash r i g = SnapshotGenerator.compute_registry_hash r i g ∧
    CompileValidator.compute_registry_hash r i g =
      sha256_hex (utf8Encode (CompileValidator.canonical_json r ++
        CompileValidator.canonical_json i ++ CompileValidator.canonical_json g)) ∧
    hexLowerB (CompileValidator.compute_registry_hash r i g) = true :=
  ⟨rfl, rfl, sha256_hex_hexLower _⟩

/-- C8: canonical serialization is invariant under key-order permutation —
documents with the same map-order normal form render byte-identically
under both programs' serializers — and on documents whose strings are
whitespace-free the rendering contains no whitespace at all. -/
theorem C8_canonical_serialization_invariance (a b : Json) :
    (normJson a = normJson b →
      CompileValidator.canonical_json a = CompileValidator.canonical_json b ∧
      SnapshotGenerator.canonical_json a = SnapshotGenerator.canonical_json b) ∧
    (jsonNoWs a = true → strNoWs (CompileValidator.canonical_json a) = true) := by
  constructor
  · intro h
    have key : serJson a = serJson b := by
      rw [← serJson_norm a, h, serJson_norm b]
    exact ⟨key, key⟩
  · intro h
    exact serJson_noWs a h

/-- Witness for C8 at a concrete pair: the same nested document with its
keys listed in two different orders at both nesting levels serializes
identically. -/
theorem C8_witness :
    normJson (Json.obj [("b", .num 1), ("a", .obj [("y", .num 2), ("x", .null)])]) =
      normJson (Json.obj [("a", .obj [("x", .null), ("y", .num 2)]), ("b", .num 1)]) ∧
    jsonNoWs (Json.obj [("b", .num 1), ("a", .obj [("y", .num 2), ("x", .null)])]) = true ∧
    CompileValidator.canonical_json (Json.obj [("b", .num 1), ("a", .obj [("y", .num 2), ("x", .null)])]) =
      CompileValidator.canonical_json (Json.obj [("a", .obj [("x", .null), ("y", .num 2)]), ("b", .num 1)]) ∧
    strNoWs (CompileValidator.canonical_json (Json.obj [("b", .num 1), ("a", .obj [("y", .num 2), ("x", .null)])])) = true := by
  have h1 : normJson (Json.obj [("b", .num 1), ("a", .obj [("y", .num 2), ("x", .null)])]) =
      normJson (Json.obj [("a", .obj [("x", .null), ("y", .num 2)]), ("b", .num 1)]) := rfl
  have h2 : jsonNoWs (Json.obj [("b", .num 1), ("a", .obj [("y", .num 2), ("x", .null)])]) = true := by
    decide
  refine ⟨h1, h2, ?_, ?_⟩
  · exact ((C8_canonical_serialization_invariance _ _).1 h1).1
  · exact (C8_canonical_serialization_invariance
      (Json.obj [("b", .num 1), ("a", .obj [("y", .num 2), ("x", .null)])])
      (Json.obj [("a", .obj [("x", .null), ("y", .num 2)]), ("b", .num 1)])).2 h2

end HG

namespace HG

open CompileValidator

/-! ### Claims about the completeness check -/

/-- Counterexample for C3: the id-mismatch diagnostic does not cite the
direction of the mismatch — an id missing from the index and an id extra
in the index produce the identical error string, so no diagnostic
distinguishes the two directions. -/
theorem C3_counterexample :
    validate_acu_completeness ⟨[⟨"A"⟩, ⟨"B"⟩], some 2, "STRUCTURAL_ONLY"⟩ [("A", .null)] =
      (false, some "ACU ID mismatch between registry and index.") ∧
    validate_acu_completeness ⟨[⟨"A"⟩], some 1, "STRUCTURAL_ONLY"⟩ [("A", .null), ("B", .null)] =
      (false, some "ACU ID mismatch between registry and index.") := by
  constructor
  · decide
  · decide

/-- C3 as amended: when the registry and index id sets differ in either
direction the completeness check fails with the single fixed id-mismatch
diagnostic, which does not state the direction; when the id sets agree
and the distinct id count differs from the declared total it fails with
the distinct count-mismatch diagnostic. -/
theorem C3_completeness_diagnostics (registry : Registry) (acu_index : Index) :
    (setEqb ((registry.ac_units.map AcUnit.acu_id).dedup) ((acu_index.map Prod.fst).dedup) = false →
      validate_acu_completeness registry acu_index =
        (false, some "ACU ID mismatch between registry and index.")) ∧
    (setEqb ((registry.ac_units.map AcUnit.acu_id).dedup) ((acu_index.map Prod.fst).dedup) = true →
      some ((((registry.ac_units.map AcUnit.acu_id).dedup).length : Int)) ≠ registry.total_acu_count →
      validate_acu_completeness registry acu_index =
        (false, some "ACU count mismatch in registry metadata.")) := by
  constructor
  · intro h
    simp [validate_acu_completeness, h]
  · intro h1 h2
    simp [validate_acu_completeness, h1, h2]

/-- Witness for C3: the amended statement applied at one input per branch,
a registry id missing from the index for the first and a correct id set
with a wrong declared total for the second. -/
theorem C3_witness :
    validate_acu_completeness ⟨[⟨"A"⟩, ⟨"B"⟩], some 2, "STRUCTURAL_ONLY"⟩ [("A", .null)] =
      (false, some "ACU ID mismatch between registry and index.") ∧
    validate_acu_completeness ⟨[⟨"A"⟩], some 7, "STRUCTURAL_ONLY"⟩ [("A", .null)] =
      (false, some "ACU count mismatch in registry metadata.") := by
  constructor
  · exact (C3_completeness_diagnostics ⟨[⟨"A"⟩, ⟨"B"⟩], some 2, "STRUCTURAL_ONLY"⟩ [("A", .null)]).1
      (by decide)
  · exact (C3_completeness_diagnostics ⟨[⟨"A"⟩], some 7, "STRUCTURAL_ONLY"⟩ [("A", .null)]).2
      (by decide) (by decide)

/-- C10: the completeness check compares ids as sets, so duplicate id
entries in ac_units are invisible to it: every registry whose distinct
ids match the index keys and whose declared total equals the distinct id
count passes, regardless of how often any record repeats. -/
theorem C10_duplicates_invisible (registry : Registry) (acu_index : Index)
    (hset : setEqb ((registry.ac_units.map AcUnit.acu_id).dedup) ((acu_index.map Prod.fst).dedup) = true)
    (hcount : registry.total_acu_count = some ((((registry.ac_units.map AcUnit.acu_id).dedup).length : Int))) :
    validate_acu_completeness registry acu_index = (true, none) := by
  simp [validate_acu_completeness, hset, hcount]

/-- Witness for C10: a registry listing the record A twice passes the
completeness check against an index holding A and B once each, with the
declared total equal to the two distinct ids. -/
theorem C10_witness :
    ¬ ((Registry.mk [⟨"A"⟩, ⟨"B"⟩, ⟨"A"⟩] (some 2) "STRUCTURAL_ONLY").ac_units.map AcUnit.acu_id).Nodup ∧
    validate_acu_completeness (Registry.mk [⟨"A"⟩, ⟨"B"⟩, ⟨"A"⟩] (some 2) "STRUCTURAL_ONLY")
      [("A", .null), ("B", .null)] = (true, none) := by
  constructor
  · decide
  · exact C10_duplicates_invisible (Registry.mk [⟨"A"⟩, ⟨"B"⟩, ⟨"A"⟩] (some 2) "STRUCTURAL_ONLY")
      [("A", .null), ("B", .null)] (by decide) (by decide)

/-! ### Claims about the freeze guard -/

set_option maxRecDepth 20000 in
/-- Counterexample for C1: the change-set provider answers with a failed
process status (return code 1, empty stdout), yet the freeze guard does
not abort: it falls through, and on otherwise valid artifacts the whole
validation run continues past the unavailable change-set all the way to a
VALID verdict with exit code 0. -/
theorem C1_counterexample :
    enforce_freeze_mode sampleManifestFreeze (Except.ok ⟨1, ""⟩) = none ∧
    CompileValidator.main sampleRegistry sampleIndex sampleGraph sampleManifestFreeze
      (Except.ok ⟨1, ""⟩) = some ⟨"VALID", none, none, none, 0⟩ := by
  constructor
  · decide
  · decide

/-- C1 as amended: the freeze guard aborts the run with the INVALID
diagnostic and exit 1 exactly when the git diff invocation raises (the
except branch); a git process that merely completes with an error status
is not detected, because subprocess.run is called with check=False and the
return code is never read. -/
theorem C1_freeze_unavailable_fail_closed (manifest : Manifest) (git : Except Unit GitRun)
    (hfreeze : manifest.freeze_mode.getD false = true) (hraise : git = Except.error ()) :
    enforce_freeze_mode manifest git =
      some ⟨"INVALID", some "Freeze mode: unable to inspect git diff.", none, none, 1⟩ := by
  subst hraise
  simp [enforce_freeze_mode, hfreeze]

/-- Witness for C1: the amended statement at a frozen manifest and a
raising git query. -/
theorem C1_witness :
    enforce_freeze_mode sampleManifestFreeze (Except.error ()) =
      some ⟨"INVALID", some "Freeze mode: unable to inspect git diff.", none, none, 1⟩ :=
  C1_freeze_unavailable_fail_closed sampleManifestFreeze (Except.error ()) (by decide) rfl

end HG

namespace HG

open SnapshotGenerator

/-! ### Filesystem lemmas for the snapshot manager -/

theorem fsGet_write_self (fs : FS) (p c : String) : fsGet (fsWrite fs p c) p = some c := by
  simp only [fsGet, fsWrite]
  rw [List.find?_cons_of_pos _ (by simp)]
  rfl

theorem fsGet_write_ne (fs : FS) (p q c : String) (h : p ≠ q) :
    fsGet (fsWrite fs p c) q = fsGet fs q := by
  simp only [fsGet, fsWrite]
  rw [List.find?_cons_of_neg _ (by simpa using h)]

theorem versionedPath_ne_snapshot (rv : String) : versionedPath rv ≠ SNAPSHOT_PATH := by
  intro h
  have h10 := congrArg (fun s : String => s.data[10]?) h
  simp only [versionedPath, SNAPSHOT_PATH, strData_append] at h10
  rw [List.getElem?_append_left, List.getElem?_append_left] at h10
  · exact absurd h10 (by decide)
  · decide
  · simp

end HG

namespace HG

open SnapshotGenerator

/-- Behavior of the snapshot generator's main once the manifest fields are
present and truthy and the recomputed hash matches: the rolling snapshot is
written, then the run either refuses on an existing archival file or writes
it and succeeds. -/
theorem snapshot_main_on_match (registry : Registry) (acu_index : Index)
    (dependency_graph : Graph) (manifest : Manifest) (fs0 : FS) (rv mh : String)
    (hrv : manifest.registry_version = some rv) (hrvne : rv ≠ "")
    (hmh : manifest.registry_hash = some mh) (hmhne : mh ≠ "")
    (hhash : SnapshotGenerator.compute_registry_hash registry.toJson (indexToJson acu_index)
        dependency_graph.toJson = mh) :
    SnapshotGenerator.main registry acu_index dependency_graph manifest fs0 =
      (if fsExists (fsWrite fs0 SNAPSHOT_PATH (renderRolling mh manifest.operating_mode))
          (versionedPath rv) then
        ⟨fsWrite fs0 SNAPSHOT_PATH (renderRolling mh manifest.operating_mode), 1,
         ["Snapshot for version " ++ rv ++ " already exists. Immutable lock enforced."]⟩
      else
        ⟨fsWrite (fsWrite fs0 SNAPSHOT_PATH (renderRolling mh manifest.operating_mode))
           (versionedPath rv) (renderArchival rv mh), 0,
         ["Snapshot generated successfully.", "Registry SHA256: " ++ mh]⟩) := by
  have hrvb : (rv == "") = false := beq_eq_false_iff_ne.mpr hrvne
  have hmhb : (mh == "") = false := beq_eq_false_iff_ne.mpr hmhne
  simp only [SnapshotGenerator.main, hrv, hmh]
  rw [hhash]
  simp [pyFalsyStr, hrvb, hmhb]

/-- C2 as amended: on the snapshot path, only the manifest-field presence
check and the hash comparison guard the snapshot writes; the freeze guard
and the three structural checks are not executed by the snapshot
generator (its main takes no change-set input and calls no validator),
so for every artifact family — including ones the structural checks or
the freeze guard would reject — a matching hash lets the rolling snapshot
be written, and lets the archival snapshot be written with exit 0 when no
archival file exists yet for the version. -/
theorem C2_snapshot_path_guards (registry : Registry) (acu_index : Index)
    (dependency_graph : Graph) (manifest : Manifest) (fs0 : FS) (rv mh : String)
    (hrv : manifest.registry_version = some rv) (hrvne : rv ≠ "")
    (hmh : manifest.registry_hash = some mh) (hmhne : mh ≠ "")
    (hhash : SnapshotGenerator.compute_registry_hash registry.toJson (indexToJson acu_index)
        dependency_graph.toJson = mh) :
    fsGet (SnapshotGenerator.main registry acu_index dependency_graph manifest fs0).fs
        SNAPSHOT_PATH = some (renderRolling mh manifest.operating_mode) ∧
    (fsExists (fsWrite fs0 SNAPSHOT_PATH (renderRolling mh manifest.operating_mode))
        (versionedPath rv) = false →
      (SnapshotGenerator.main registry acu_index dependency_graph manifest fs0).exitCode = 0 ∧
      fsGet (SnapshotGenerator.main registry acu_index dependency_graph manifest fs0).fs
          (versionedPath rv) = some (renderArchival rv mh)) := by
  have hch := snapshot_main_on_match registry acu_index dependency_graph manifest fs0 rv mh
    hrv hrvne hmh hmhne hhash
  rw [hch]
  by_cases hex : fsExists (fsWrite fs0 SNAPSHOT_PATH (renderRolling mh manifest.operating_mode))
      (versionedPath rv) = true
  · rw [if_pos hex]
    refine ⟨fsGet_write_self fs0 _ _, ?_⟩
    intro hfalse
    rw [hex] at hfalse
    cases hfalse
  · rw [if_neg hex]
    constructor
    · rw [fsGet_write_ne _ _ _ _ (versionedPath_ne_snapshot rv)]
      exact fsGet_write_self fs0 _ _
    · intro _
      exact ⟨rfl, fsGet_write_self _ _ _⟩

set_option maxRecDepth 40000 in
/-- Counterexample for C2: on the sample artifacts with a cyclic dependency
graph — an input the DAG check rejects — the snapshot generator still
writes both the rolling and the archival snapshot and exits 0, because its
main never runs the freeze guard or any structural check. -/
theorem C2_counterexample :
    CompileValidator.validate_dag sampleGraphCyclic =
      (false, some "Dependency graph contains a cycle.") ∧
    (SnapshotGenerator.main sampleRegistry sampleIndex sampleGraphCyclic sampleManifestCyclic
      []).exitCode = 0 ∧
    (fsGet (SnapshotGenerator.main sampleRegistry sampleIndex sampleGraphCyclic
      sampleManifestCyclic []).fs SNAPSHOT_PATH).isSome = true ∧
    (fsGet (SnapshotGenerator.main sampleRegistry sampleIndex sampleGraphCyclic
      sampleManifestCyclic []).fs (versionedPath "v1")).isSome = true := by
  refine ⟨by decide, ?_, ?_, ?_⟩ <;> decide

/-- Witness for C2: the amended statement at the cyclic sample input, where
both snapshot files get written and the run exits 0. -/
theorem C2_witness :
    fsGet (SnapshotGenerator.main sampleRegistry sampleIndex sampleGraphCyclic
        sampleManifestCyclic []).fs SNAPSHOT_PATH =
      some (renderRolling sampleHashCyclic sampleManifestCyclic.operating_mode) ∧
    (SnapshotGenerator.main sampleRegistry sampleIndex sampleGraphCyclic
        sampleManifestCyclic []).exitCode = 0 ∧
    fsGet (SnapshotGenerator.main sampleRegistry sampleIndex sampleGraphCyclic
        sampleManifestCyclic []).fs (versionedPath "v1") =
      some (renderArchival "v1" sampleHashCyclic) := by
  have h := C2_snapshot_path_guards sampleRegistry sampleIndex sampleGraphCyclic
    sampleManifestCyclic [] "v1" sampleHashCyclic rfl (by decide) rfl (by decide) rfl
  exact ⟨h.1, (h.2 (by decide)).1, (h.2 (by decide)).2⟩

/-- C6: archival publication is write-once per registry_version. On every
run that reaches publication (manifest fields truthy, hash verified) while
an archival file for the version already exists with any content c
whatsoever — the refusal never reads or compares that content — the run
ends with exit 1 and the immutability message, and the archival file still
holds c afterwards. -/
theorem C6_archival_write_once (registry : Registry) (acu_index : Index)
    (dependency_graph : Graph) (manifest : Manifest) (fs0 : FS) (rv mh c : String)
    (hrv : manifest.registry_version = some rv) (hrvne : rv ≠ "")
    (hmh : manifest.registry_hash = some mh) (hmhne : mh ≠ "")
    (hhash : SnapshotGenerator.compute_registry_hash registry.toJson (indexToJson acu_index)
        dependency_graph.toJson = mh)
    (hexist : fsGet fs0 (versionedPath rv) = some c) :
    SnapshotGenerator.main registry acu_index dependency_graph manifest fs0 =
      ⟨fsWrite fs0 SNAPSHOT_PATH (renderRolling mh manifest.operating_mode), 1,
       ["Snapshot for version " ++ rv ++ " already exists. Immutable lock enforced."]⟩ ∧
    fsGet (SnapshotGenerator.main registry acu_index dependency_graph manifest fs0).fs
        (versionedPath rv) = some c := by
  have hch := snapshot_main_on_match registry acu_index dependency_graph manifest fs0 rv mh
    hrv hrvne hmh hmhne hhash
  have hget1 : fsGet (fsWrite fs0 SNAPSHOT_PATH (renderRolling mh manifest.operating_mode))
      (versionedPath rv) = some c := by
    rw [fsGet_write_ne _ _ _ _ (Ne.symm (versionedPath_ne_snapshot rv))]
    exact hexist
  have hex : fsExists (fsWrite fs0 SNAPSHOT_PATH (renderRolling mh manifest.operating_mode))
      (versionedPath rv) = true := by
    simp [fsExists, hget1]
  rw [hch, if_pos hex]
  exact ⟨rfl, hget1⟩

/-- Witness for C6: a second publication attempt against a directory that
already archives version v1 with content archived-content refuses with
exit 1 and leaves that content in place. -/
theorem C6_witness :
    SnapshotGenerator.main sampleRegistry sampleIndex sampleGraph sampleManifestFreeze
      [(versionedPath "v1", "archived-content")] =
      ⟨fsWrite [(versionedPath "v1", "archived-content")] SNAPSHOT_PATH
         (renderRolling sampleHash sampleManifestFreeze.operating_mode), 1,
       ["Snapshot for version " ++ "v1" ++ " already exists. Immutable lock enforced."]⟩ ∧
    fsGet (SnapshotGenerator.main sampleRegistry sampleIndex sampleGraph sampleManifestFreeze
        [(versionedPath "v1", "archived-content")]).fs (versionedPath "v1") =
      some "archived-content" :=
  C6_archival_write_once sampleRegistry sampleIndex sampleGraph sampleManifestFreeze
    [(versionedPath "v1", "archived-content")] "v1" sampleHash "archived-content"
    rfl (by decide) rfl (by decide) rfl (by decide)

/-- C9: the snapshot generator is not atomic on an immutability failure —
on every run whose hash verification succeeds but whose archival file
already exists, the rolling snapshot has already been overwritten with the
new payload by the time the run fails with the immutability error. -/
theorem C9_rolling_overwritten_on_refusal (registry : Registry) (acu_index : Index)
    (dependency_graph : Graph) (manifest : Manifest) (fs0 : FS) (rv mh c : String)
    (hrv : manifest.registry_version = some rv) (hrvne : rv ≠ "")
    (hmh : manifest.registry_hash = some mh) (hmhne : mh ≠ "")
    (hhash : SnapshotGenerator.compute_registry_hash registry.toJson (indexToJson acu_index)
        dependency_graph.toJson = mh)
    (hexist : fsGet fs0 (versionedPath rv) = some c) :
    (SnapshotGenerator.main registry acu_index dependency_graph manifest fs0).exitCode = 1 ∧
    (SnapshotGenerator.main registry acu_index dependency_graph manifest fs0).messages =
      ["Snapshot for version " ++ rv ++ " already exists. Immutable lock enforced."] ∧
    fsGet (SnapshotGenerator.main registry acu_index dependency_graph manifest fs0).fs
        SNAPSHOT_PATH = some (renderRolling mh manifest.operating_mode) := by
  have hch := snapshot_main_on_match registry acu_index dependency_graph manifest fs0 rv mh
    hrv hrvne hmh hmhne hhash
  have hget1 : fsGet (fsWrite fs0 SNAPSHOT_PATH (renderRolling mh manifest.operating_mode))
      (versionedPath rv) = some c := by
    rw [fsGet_write_ne _ _ _ _ (Ne.symm (versionedPath_ne_snapshot rv))]
    exact hexist
  have hex : fsExists (fsWrite fs0 SNAPSHOT_PATH (renderRolling mh manifest.operating_mode))
      (versionedPath rv) = true := by
    simp [fsExists, hget1]
  rw [hch, if_pos hex]
  exact ⟨rfl, rfl, fsGet_write_self fs0 _ _⟩

/-- Witness for C9: the failed second publication for version v1 has
already replaced the rolling snapshot with the new payload when it exits
with the immutability error. -/
theorem C9_witness :
    (SnapshotGenerator.main sampleRegistry sampleIndex sampleGraph sampleManifestFreeze
      [(versionedPath "v1", "first-run-archive")]).exitCode = 1 ∧
    (SnapshotGenerator.main sampleRegistry sampleIndex sampleGraph sampleManifestFreeze
      [(versionedPath "v1", "first-run-archive")]).messages =
      ["Snapshot for version " ++ "v1" ++ " already exists. Immutable lock enforced."] ∧
    fsGet (SnapshotGenerator.main sampleRegistry sampleIndex sampleGraph sampleManifestFreeze
        [(versionedPath "v1", "first-run-archive")]).fs SNAPSHOT_PATH =
      some (renderRolling sampleHash sampleManifestFreeze.operating_mode) :=
  C9_rolling_overwritten_on_refusal sampleRegistry sampleIndex sampleGraph sampleManifestFreeze
    [(versionedPath "v1", "first-run-archive")] "v1" sampleHash "first-run-archive"
    rfl (by decide) rfl (by decide) rfl (by decide)

end HG

namespace HG

open CompileValidator

/-- C7: in the validator, whenever freeze mode is active and some protected
file appears in the change-set, the run aborts with the freeze-violation
diagnostic naming an offending protected changed path and exit 1 — for
every artifact family, in particular ones whose hash matches and whose
structural checks would all pass, since the guard runs before any of
them. -/
theorem C7_freeze_violation_precedes_hash (registry : Registry) (acu_index : Index)
    (dependency_graph : Graph) (manifest : Manifest) (gr : GitRun) (f : String)
    (hfreeze : manifest.freeze_mode.getD false = true)
    (hf : f ∈ protected_files)
    (hchanged : f ∈ pySplitNl (pyStrip gr.stdout)) :
    ∃ f', f' ∈ protected_files ∧ f' ∈ pySplitNl (pyStrip gr.stdout) ∧
      CompileValidator.main registry acu_index dependency_graph manifest (Except.ok gr) =
        some ⟨"INVALID", some ("Freeze mode active: modification detected in " ++ f' ++ "."),
              none, none, 1⟩ := by
  have hsome : (protected_files.find?
      (fun file => (pySplitNl (pyStrip gr.stdout)).contains file)).isSome := by
    rw [List.find?_isSome]
    exact ⟨f, hf, by simpa using hchanged⟩
  obtain ⟨f', hfind⟩ := Option.isSome_iff_exists.mp hsome
  have hf'mem : f' ∈ protected_files := List.mem_of_find?_eq_some hfind
  have hf'pred := List.find?_some hfind
  have hf'changed : f' ∈ pySplitNl (pyStrip gr.stdout) := by simpa using hf'pred
  refine ⟨f', hf'mem, hf'changed, ?_⟩
  have henf : enforce_freeze_mode manifest (Except.ok gr) =
      some ⟨"INVALID", some ("Freeze mode active: modification detected in " ++ f' ++ "."),
            none, none, 1⟩ := by
    simp only [enforce_freeze_mode, hfreeze]
    rw [hfind]
    simp
  simp only [CompileValidator.main]
  rw [henf]

/-- Witness for C7: with the change-set naming the protected index file and
artifacts whose hash matches the manifest, the validator aborts with the
freeze violation naming that file. -/
theorem C7_witness :
    ∃ f', f' ∈ protected_files ∧
      f' ∈ pySplitNl (pyStrip "03_canonical_registry/acu_index.json\n") ∧
      CompileValidator.main sampleRegistry sampleIndex sampleGraph sampleManifestFreeze
        (Except.ok ⟨0, "03_canonical_registry/acu_index.json\n"⟩) =
        some ⟨"INVALID",
              some ("Freeze mode active: modification detected in " ++ f' ++ "."),
              none, none, 1⟩ :=
  C7_freeze_violation_precedes_hash sampleRegistry sampleIndex sampleGraph sampleManifestFreeze
    ⟨0, "03_canonical_registry/acu_index.json\n"⟩ "03_canonical_registry/acu_index.json"
    (by decide) (by decide) (by decide)

end HG

namespace HG.CompileValidator

open HG

/-! ### Characterization of the in_degree and adjacency tables -/

theorem buildDegAdj_fst_go (E : List Edge) :
    ∀ (d : String → Int) (a : String → List String) (x : String),
      (E.foldl
        (fun (p : (String → Int) × (String → List String)) e =>
          (fun y => if y = e.to_ then p.1 y + 1 else p.1 y,
           fun y => if y = e.from_ then p.2 y ++ [e.to_] else p.2 y)) (d, a)).1 x =
      d x + (E.countP (fun e => e.to_ == x) : Int) := by
  induction E with
  | nil => intro d a x; simp
  | cons e E ih =>
    intro d a x
    rw [List.foldl_cons, ih, List.countP_cons]
    simp only []
    by_cases h : e.to_ = x
    · rw [if_pos h.symm, if_pos (beq_iff_eq.mpr h)]
      push_cast
      omega
    · rw [if_neg (fun hc : x = e.to_ => h hc.symm), if_neg (fun hc => h (beq_iff_eq.mp hc))]
      push_cast
      omega

theorem buildDegAdj_snd_go (E : List Edge) :
    ∀ (d : String → Int) (a : String → List String) (x : String),
      (E.foldl
        (fun (p : (String → Int) × (String → List String)) e =>
          (fun y => if y = e.to_ then p.1 y + 1 else p.1 y,
           fun y => if y = e.from_ then p.2 y ++ [e.to_] else p.2 y)) (d, a)).2 x =
      a x ++ (E.filter (fun e => e.from_ == x)).map (fun e => e.to_) := by
  induction E with
  | nil => intro d a x; simp
  | cons e E ih =>
    intro d a x
    rw [List.foldl_cons, ih, List.filter_cons]
    simp only []
    by_cases h : e.from_ = x
    · rw [if_pos (h ▸ rfl : x = e.from_), if_pos (beq_iff_eq.mpr h)]
      simp
    · rw [if_neg (fun hc : x = e.from_ => h hc.symm), if_neg (fun hc => h (beq_iff_eq.mp hc))]

theorem buildDegAdj_fst (E : List Edge) (x : String) :
    (buildDegAdj E).1 x = (E.countP (fun e => e.to_ == x) : Int) := by
  have h := buildDegAdj_fst_go E (fun _ => 0) (fun _ => []) x
  simpa [buildDegAdj] using h

theorem buildDegAdj_snd (E : List Edge) (x : String) :
    (buildDegAdj E).2 x = (E.filter (fun e => e.from_ == x)).map (fun e => e.to_) := by
  have h := buildDegAdj_snd_go E (fun _ => 0) (fun _ => []) x
  simpa [buildDegAdj] using h

/-! ### Characterization of the neighbor processing pass -/

theorem processNeighbors_cons (nb : String) (rest : List String) (d : String → Int)
    (q : List String) :
    processNeighbors (nb :: rest) d q =
      processNeighbors rest (fun x => if x = nb then d x - 1 else d x)
        (if d nb - 1 = 0 then q ++ [nb] else q) := by
  simp only [processNeighbors]
  rw [show (if True then d nb - 1 else d nb) = d nb - 1 from if_pos trivial]

theorem processNeighbors_fst (ns : List String) :
    ∀ (d : String → Int) (q : List String) (x : String),
      (processNeighbors ns d q).1 x = d x - (ns.count x : Int) := by
  induction ns with
  | nil => intro d q x; simp [processNeighbors]
  | cons nb rest ih =>
    intro d q x
    rw [processNeighbors_cons, ih]
    by_cases h : x = nb
    · subst h
      rw [List.count_cons_self, if_pos rfl]
      push_cast
      omega
    · rw [List.count_cons_of_ne h, if_neg h]

theorem processNeighbors_snd_mem (ns : List String) :
    ∀ (d : String → Int) (q : List String) (x : String),
      x ∈ (processNeighbors ns d q).2 ↔
        x ∈ q ∨ (1 ≤ d x ∧ d x ≤ (ns.count x : Int)) := by
  induction ns with
  | nil =>
    intro d q x
    simp only [processNeighbors, List.count_nil]
    constructor
    · intro h; exact Or.inl h
    · intro h
      rcases h with h | h
      · exact h
      · omega
  | cons nb rest ih =>
    intro d q x
    rw [processNeighbors_cons, ih]
    by_cases h : x = nb
    · subst h
      rw [List.count_cons_self, if_pos rfl]
      by_cases henq : d x - 1 = 0
      · rw [if_pos henq]
        simp only [List.mem_append, List.mem_singleton]
        constructor
        · intro _
          right
          push_cast
          omega
        · intro _
          exact Or.inl (Or.inr trivial)
      · rw [if_neg henq]
        constructor
        · intro hh
          rcases hh with hh | hh
          · exact Or.inl hh
          · right
            push_cast at hh ⊢
            omega
        · intro hh
          rcases hh with hh | hh
          · exact Or.inl hh
          · right
            push_cast at hh ⊢
            omega
    · rw [List.count_cons_of_ne h, if_neg h]
      by_cases henq : d nb - 1 = 0
      · rw [if_pos henq]
        simp only [List.mem_append, List.mem_singleton]
        constructor
        · intro hh
          rcases hh with (hh | hh) | hh
          · exact Or.inl hh
          · exact absurd hh h
          · exact Or.inr hh
        · intro hh
          rcases hh with hh | hh
          · exact Or.inl (Or.inl hh)
          · exact Or.inr hh
      · rw [if_neg henq]

end HG.CompileValidator

namespace HG.CompileValidator

open HG

theorem processNeighbors_snd_nodup (ns : List String) :
    ∀ (d : String → Int) (q : List String), q.Nodup → (∀ x ∈ q, d x ≤ 0) →
      (processNeighbors ns d q).2.Nodup ∧
      (∀ x ∈ (processNeighbors ns d q).2, (processNeighbors ns d q).1 x ≤ 0) := by
  induction ns with
  | nil =>
    intro d q hq hqd
    exact ⟨hq, hqd⟩
  | cons nb rest ih =>
    intro d q hq hqd
    rw [processNeighbors_cons]
    by_cases henq : d nb - 1 = 0
    · rw [if_pos henq]
      apply ih
      · rw [List.nodup_append]
        refine ⟨hq, List.nodup_singleton nb, ?_⟩
        intro a ha hb
        rw [List.mem_singleton] at hb
        subst hb
        have := hqd a ha
        omega
      · intro x hx
        rcases List.mem_append.mp hx with hx | hx
        · have := hqd x hx
          by_cases hxe : x = nb
          · rw [if_pos hxe]; omega
          · rw [if_neg hxe]; omega
        · rw [List.mem_singleton] at hx
          subst hx
          rw [if_pos rfl]
          omega
    · rw [if_neg henq]
      apply ih
      · exact hq
      · intro x hx
        have := hqd x hx
        by_cases hxe : x = nb
        · rw [if_pos hxe]; omega
        · rw [if_neg hxe]; omega

theorem processNeighbors_measure (ns : List String) (nds : List String) (hnodup : nds.Nodup) :
    ∀ (d : String → Int) (q : List String), (∀ x ∈ ns, x ∈ nds) →
      kahnMeasure nds (processNeighbors ns d q).2 (processNeighbors ns d q).1 ≤
        kahnMeasure nds q d := by
  induction ns with
  | nil =>
    intro d q _
    exact Nat.le_refl _
  | cons nb rest ih =>
    intro d q hns
    rw [processNeighbors_cons]
    have hmem : nb ∈ nds := hns nb (by simp)
    have hstep : kahnMeasure nds (if d nb - 1 = 0 then q ++ [nb] else q)
        (fun x => if x = nb then d x - 1 else d x) ≤ kahnMeasure nds q d := by
      have hperm : nds.Perm (nb :: nds.erase nb) := List.perm_cons_erase hmem
      have hs1 : ∀ f : String → Nat, (nds.map f).sum = f nb + ((nds.erase nb).map f).sum := by
        intro f
        rw [(hperm.map f).sum_eq]
        simp
      have hcongr : ((nds.erase nb).map
            (fun x => ((if x = nb then d x - 1 else d x)).toNat)).sum =
          ((nds.erase nb).map (fun x => (d x).toNat)).sum := by
        apply congrArg
        apply List.map_congr_left
        intro a ha
        have hane : a ≠ nb := ((hnodup.mem_erase_iff).mp ha).1
        rw [if_neg hane]
      simp only [kahnMeasure]
      rw [hs1 (fun x => ((if x = nb then d x - 1 else d x)).toNat), hcongr,
          hs1 (fun x => (d x).toNat)]
      rw [if_pos (rfl : nb = nb)]
      by_cases henq : d nb - 1 = 0
      · rw [if_pos henq]
        rw [List.length_append]
        simp only [List.length_singleton]
        have h1 : (d nb - 1).toNat = 0 := by omega
        have h2 : (d nb).toNat = 1 := by omega
        rw [h1, h2]
        omega
      · rw [if_neg henq]
        omega
    exact le_trans (ih _ _ (fun x hx => hns x (by simp [hx]))) hstep

end HG.CompileValidator

namespace HG.CompileValidator

open HG

theorem inRemaining_nil_done (E : List Edge) (x : String) :
    inRemaining E [] x = (E.countP (fun e => e.to_ == x) : Int) := by
  simp [inRemaining]

theorem inRemaining_nonneg (E : List Edge) (done : List String) (x : String) :
    0 ≤ inRemaining E done x := Int.natCast_nonneg _

theorem inRemaining_append (E : List Edge) (done : List String) (node : String)
    (hnode : node ∉ done) (x : String) :
    inRemaining E (done ++ [node]) x =
      inRemaining E done x - (E.countP (fun e => e.from_ == node && e.to_ == x) : Int) := by
  induction E with
  | nil => simp [inRemaining]
  | cons e E ih =>
    simp only [inRemaining, List.countP_cons] at ih ⊢
    push_cast at ih ⊢
    by_cases h1 : e.to_ = x
    · by_cases h3 : e.from_ = node
      · have h2 : e.from_ ∉ done := by rw [h3]; exact hnode
        have e1 : (e.to_ == x && !((done ++ [node]).contains e.from_)) = false := by
          simp [h3]
        have e2 : (e.to_ == x && !(done.contains e.from_)) = true := by
          simp [h1, h2]
        have e3 : (e.from_ == node && e.to_ == x) = true := by
          simp [h1, h3]
        rw [e1, e2, e3]
        rw [show (if false = true then (1:ℤ) else 0) = 0 from rfl,
            show (if true = true then (1:ℤ) else 0) = 1 from rfl]
        omega
      · by_cases h2 : e.from_ ∈ done
        · have e1 : (e.to_ == x && !((done ++ [node]).contains e.from_)) = false := by
            simp [h2]
          have e2 : (e.to_ == x && !(done.contains e.from_)) = false := by
            simp [h2]
          have e3 : (e.from_ == node && e.to_ == x) = false := by
            simp [h3]
          rw [e1, e2, e3]
          rw [show (if false = true then (1:ℤ) else 0) = 0 from rfl]
          omega
        · have e1 : (e.to_ == x && !((done ++ [node]).contains e.from_)) = true := by
            simp [h1, h2, h3]
          have e2 : (e.to_ == x && !(done.contains e.from_)) = true := by
            simp [h1, h2]
          have e3 : (e.from_ == node && e.to_ == x) = false := by
            simp [h3]
          rw [e1, e2, e3]
          rw [show (if false = true then (1:ℤ) else 0) = 0 from rfl,
              show (if true = true then (1:ℤ) else 0) = 1 from rfl]
          omega
    · have e1 : (e.to_ == x && !((done ++ [node]).contains e.from_)) = false := by
        simp [h1]
      have e2 : (e.to_ == x && !(done.contains e.from_)) = false := by
        simp [h1]
      have e3 : (e.from_ == node && e.to_ == x) = false := by
        simp [h1]
      rw [e1, e2, e3]
      rw [show (if false = true then (1:ℤ) else 0) = 0 from rfl]
      omega

theorem adj_count (E : List Edge) (node x : String) :
    ((buildDegAdj E).2 node).count x = E.countP (fun e => e.from_ == node && e.to_ == x) := by
  rw [buildDegAdj_snd]
  induction E with
  | nil => simp
  | cons e E ih =>
    rw [List.filter_cons, List.countP_cons]
    by_cases h2 : e.from_ = node
    · rw [if_pos (beq_iff_eq.mpr h2), List.map_cons]
      by_cases h3 : e.to_ = x
      · have hp : (e.from_ == node && x == x) = true := by simp [h2]
        rw [h3, List.count_cons_self, ih, hp]
        rfl
      · have hp : (e.from_ == node && e.to_ == x) = false := by simp [h3]
        rw [List.count_cons_of_ne (fun hc => h3 hc.symm), ih, hp]
        rfl
    · have hp : (e.from_ == node && e.to_ == x) = false := by simp [h2]
      rw [if_neg (fun hc => h2 (beq_iff_eq.mp hc)), ih, hp]
      rfl

end HG.CompileValidator

namespace HG.CompileValidator

open HG

theorem precedes_append_left (l l2 : List String) (a b : String)
    (h : precedes l a b) : precedes (l ++ l2) a b := by
  obtain ⟨i, j, hi, hj, hij, ha, hb⟩ := h
  refine ⟨i, j, ?_, ?_, hij, ?_, ?_⟩
  · rw [List.length_append]; omega
  · rw [List.length_append]; omega
  · rw [List.get_append i]
    exact ha
  · rw [List.get_append j]
    exact hb

theorem precedes_last (l : List String) (node a : String) (ha : a ∈ l) :
    precedes (l ++ [node]) a node := by
  obtain ⟨⟨i, hi⟩, hget⟩ := List.mem_iff_get.mp ha
  refine ⟨i, l.length, ?_, ?_, hi, ?_, ?_⟩
  · rw [List.length_append]; omega
  · rw [List.length_append]; simp
  · rw [List.get_append i]
    exact hget
  · simp [List.get_eq_getElem]

theorem precedes_trans (l : List String) (hnodup : l.Nodup) (a b c : String)
    (h1 : precedes l a b) (h2 : precedes l b c) : precedes l a c := by
  obtain ⟨i1, j1, hi1, hj1, hij1, ha1, hb1⟩ := h1
  obtain ⟨i2, j2, hi2, hj2, hij2, hb2, hc2⟩ := h2
  have hsame : j1 = i2 := by
    have := hb2 ▸ hb1
    have hinj := List.Nodup.get_inj_iff hnodup (i := ⟨j1, hj1⟩) (j := ⟨i2, hi2⟩)
    have : l.get ⟨j1, hj1⟩ = l.get ⟨i2, hi2⟩ := by rw [hb1, hb2]
    exact Fin.mk.injEq _ _ _ _ ▸ (hinj.mp this)
  exact ⟨i1, j2, hi1, hj2, by omega, ha1, hc2⟩

theorem precedes_irrefl (l : List String) (hnodup : l.Nodup) (a : String) :
    ¬ precedes l a a := by
  intro h
  obtain ⟨i, j, hi, hj, hij, ha, hb⟩ := h
  have : l.get ⟨i, hi⟩ = l.get ⟨j, hj⟩ := by rw [ha, hb]
  have := (List.Nodup.get_inj_iff hnodup).mp this
  have : i = j := congrArg Fin.val this
  omega

theorem inRemaining_eq_zero_of_topo (E : List Edge) (done : List String)
    (htopo : ∀ e ∈ E, e.to_ ∈ done → precedes done e.from_ e.to_) (x : String)
    (hx : x ∈ done) : inRemaining E done x = 0 := by
  simp only [inRemaining]
  rw [Int.natCast_eq_zero, List.countP_eq_zero]
  intro e he hp
  simp only [Bool.and_eq_true, beq_iff_eq, Bool.not_eq_eq_eq_not, Bool.not_true] at hp
  obtain ⟨hto, hfrom⟩ := hp
  have hpre := htopo e he (hto ▸ hx)
  obtain ⟨i, j, hi, hj, _, ha, _⟩ := hpre
  have hmem : e.from_ ∈ done := ha ▸ List.get_mem done i hi
  have := List.elem_eq_true_of_mem hmem
  rw [List.contains] at hfrom
  rw [this] at hfrom
  cases hfrom

theorem countP_from_le (E : List Edge) (done : List String) (node x : String)
    (hnode : node ∉ done) :
    E.countP (fun e => e.from_ == node && e.to_ == x) ≤
      E.countP (fun e => e.to_ == x && !done.contains e.from_) := by
  apply List.countP_mono_left
  intro e _ hp
  simp only [Bool.and_eq_true, beq_iff_eq] at hp
  simp only [Bool.and_eq_true, beq_iff_eq, Bool.not_eq_eq_eq_not, Bool.not_true]
  refine ⟨hp.2, ?_⟩
  by_cases hmem : e.from_ ∈ done
  · exact absurd (hp.1 ▸ hmem) hnode
  · rw [show (done.contains e.from_) = false from ?_]
    exact Bool.eq_false_iff.mpr (fun hc => hmem (List.mem_of_elem_eq_true hc))

end HG.CompileValidator

namespace HG.CompileValidator

open HG

theorem kahnLoop_spec (E : List Edge) (nds : List String) (hnds : nds.Nodup)
    (hE : ∀ e ∈ E, e.from_ ∈ nds ∧ e.to_ ∈ nds) :
    ∀ (fuel : Nat) (done q : List String) (d : String → Int),
      KahnInv E nds done q d →
      kahnMeasure nds q d ≤ fuel →
      ∃ doneF dF, KahnInv E nds doneF [] dF ∧
        kahnLoop (buildDegAdj E).2 fuel q d done.length = doneF.length := by
  intro fuel
  induction fuel with
  | zero =>
    intro done q d hinv hfuel
    have hq : q = [] := by
      have hlen : q.length = 0 := by
        simp only [kahnMeasure] at hfuel
        omega
      exact List.length_eq_zero.mp hlen
    subst hq
    exact ⟨done, d, hinv, rfl⟩
  | succ fuel ih =>
    intro done q d hinv hfuel
    cases q with
    | nil => exact ⟨done, d, hinv, rfl⟩
    | cons node rest =>
      obtain ⟨hnodup, hmem, hdeg, hqiff, htopo⟩ := hinv
      rw [show kahnLoop (buildDegAdj E).2 (fuel + 1) (node :: rest) d done.length =
            kahnLoop (buildDegAdj E).2 fuel
              (processNeighbors ((buildDegAdj E).2 node) d rest).2
              (processNeighbors ((buildDegAdj E).2 node) d rest).1
              (done.length + 1) from rfl]
      set ns := (buildDegAdj E).2 node with hns
      set p := processNeighbors ns d rest with hp
      obtain ⟨hnode_nds, hnode_done, hnode_deg⟩ := (hqiff node).mp (by simp)
      have hnodup_done : done.Nodup := (List.nodup_append.mp hnodup).1
      have hnodup_nr : (node :: rest).Nodup := (List.nodup_append.mp hnodup).2.1
      have hdisj : done.Disjoint (node :: rest) := (List.nodup_append.mp hnodup).2.2
      have hnode_rest : node ∉ rest := (List.nodup_cons.mp hnodup_nr).1
      have hnodup_rest : rest.Nodup := (List.nodup_cons.mp hnodup_nr).2
      have hns_sub : ∀ x ∈ ns, x ∈ nds := by
        intro x hx
        rw [hns, buildDegAdj_snd] at hx
        obtain ⟨e, he, rfl⟩ := List.mem_map.mp hx
        exact (hE e (List.mem_of_mem_filter he)).2
      have hd' : ∀ x, p.1 x =
          d x - (E.countP (fun e => e.from_ == node && e.to_ == x) : Int) := by
        intro x
        rw [hp, processNeighbors_fst, hns, adj_count]
      have hd'rem : ∀ x, p.1 x = inRemaining E (done ++ [node]) x := by
        intro x
        rw [hd' x, hdeg x, inRemaining_append E done node hnode_done x]
      have hd'nonneg : ∀ x, 0 ≤ p.1 x := fun x => (hd'rem x) ▸ inRemaining_nonneg E _ x
      have hdnonneg : ∀ x, 0 ≤ d x := fun x => (hdeg x) ▸ inRemaining_nonneg E _ x
      have hdone_deg : ∀ x ∈ done, d x = 0 := by
        intro x hx
        rw [hdeg x]
        exact inRemaining_eq_zero_of_topo E done htopo x hx
      have hqmem : ∀ x, x ∈ p.2 ↔ x ∈ rest ∨
          (1 ≤ d x ∧ d x ≤ (E.countP (fun e => e.from_ == node && e.to_ == x) : Int)) := by
        intro x
        rw [hp, processNeighbors_snd_mem]
        rw [show ((ns.count x : Nat) : Int) =
              (E.countP (fun e => e.from_ == node && e.to_ == x) : Int) from by
            rw [hns, adj_count]]
      have hq'iff : ∀ x, x ∈ p.2 ↔ (x ∈ nds ∧ (x ∉ done ++ [node]) ∧ p.1 x = 0) := by
        intro x
        rw [hqmem x]
        constructor
        · intro hx
          rcases hx with hx | hx
          · obtain ⟨h1, h2, h3⟩ := (hqiff x).mp (List.mem_cons_of_mem node hx)
            have hxne : x ≠ node := fun hc => hnode_rest (hc ▸ hx)
            refine ⟨h1, ?_, ?_⟩
            · intro hc
              rcases List.mem_append.mp hc with hc | hc
              · exact h2 hc
              · exact hxne (List.mem_singleton.mp hc)
            · have hle := countP_from_le E done node x hnode_done
              have hle2 : (E.countP (fun e => e.from_ == node && e.to_ == x) : Int) ≤
                  inRemaining E done x := by
                simp only [inRemaining]
                exact_mod_cast hle
              rw [hd' x, hdeg x]
              rw [hdeg x] at h3
              omega
          · have hpos : 0 < E.countP (fun e => e.from_ == node && e.to_ == x) := by
              have h1 := hx.1
              have h2 := hx.2
              omega
            obtain ⟨e, he, hpe⟩ := List.countP_pos.mp hpos
            simp only [Bool.and_eq_true, beq_iff_eq] at hpe
            have hxnds : x ∈ nds := hpe.2 ▸ (hE e he).2
            have hxdone : x ∉ done := by
              intro hc
              have h0 := hdone_deg x hc
              have h1 := hx.1
              omega
            have hxnode : x ≠ node := by
              intro hc
              have h1 := hx.1
              rw [hc, hnode_deg] at h1
              omega
            refine ⟨hxnds, ?_, ?_⟩
            · intro hc
              rcases List.mem_append.mp hc with hc | hc
              · exact hxdone hc
              · exact hxnode (List.mem_singleton.mp hc)
            · have hnn := hd'nonneg x
              rw [hd' x] at hnn ⊢
              have h2 := hx.2
              omega
        · rintro ⟨hxnds, hxnotin, hx0⟩
          have hxdone : x ∉ done := fun hc => hxnotin (List.mem_append.mpr (Or.inl hc))
          have hxnode : x ≠ node :=
            fun hc => hxnotin (List.mem_append.mpr (Or.inr (List.mem_singleton.mpr hc)))
          by_cases hdx : d x = 0
          · left
            have hxq := (hqiff x).mpr ⟨hxnds, hxdone, hdx⟩
            rcases List.mem_cons.mp hxq with hc | hc
            · exact absurd hc hxnode
            · exact hc
          · right
            have h1 : 1 ≤ d x := by
              have := hdnonneg x
              omega
            refine ⟨h1, ?_⟩
            rw [hd' x] at hx0
            omega
      have hq'nodup : p.2.Nodup := by
        rw [hp]
        refine (processNeighbors_snd_nodup ns d rest hnodup_rest ?_).1
        intro x hx
        exact ((hqiff x).mp (List.mem_cons_of_mem node hx)).2.2.le
      have hnodup' : ((done ++ [node]) ++ p.2).Nodup := by
        rw [List.nodup_append]
        refine ⟨?_, hq'nodup, ?_⟩
        · rw [List.nodup_append]
          refine ⟨hnodup_done, List.nodup_singleton node, ?_⟩
          intro a ha hb
          rw [List.mem_singleton] at hb
          subst hb
          exact hdisj ha (by simp)
        · intro a ha hb
          exact ((hq'iff a).mp hb).2.1 ha
      have hmem' : ∀ x ∈ (done ++ [node]) ++ p.2, x ∈ nds := by
        intro x hx
        rcases List.mem_append.mp hx with hx | hx
        · rcases List.mem_append.mp hx with hx | hx
          · exact hmem x (List.mem_append.mpr (Or.inl hx))
          · rw [List.mem_singleton] at hx
            subst hx
            exact hnode_nds
        · exact ((hq'iff x).mp hx).1
      have htopo' : ∀ e ∈ E, e.to_ ∈ done ++ [node] →
          precedes (done ++ [node]) e.from_ e.to_ := by
        intro e he hto
        rcases List.mem_append.mp hto with hto | hto
        · exact precedes_append_left done [node] _ _ (htopo e he hto)
        · rw [List.mem_singleton] at hto
          have hzero : inRemaining E done node = 0 := by
            rw [← hdeg node]
            exact hnode_deg
          have hfrom_done : e.from_ ∈ done := by
            by_contra hc
            have hpos : 0 < E.countP (fun e2 => e2.to_ == node && !done.contains e2.from_) := by
              rw [List.countP_pos]
              refine ⟨e, he, ?_⟩
              simp only [Bool.and_eq_true, beq_iff_eq, Bool.not_eq_eq_eq_not, Bool.not_true]
              refine ⟨hto, ?_⟩
              exact Bool.eq_false_iff.mpr (fun hcc => hc (List.mem_of_elem_eq_true hcc))
            simp only [inRemaining] at hzero
            omega
          rw [hto]
          exact precedes_last done node e.from_ hfrom_done
      have hinv' : KahnInv E nds (done ++ [node]) p.2 p.1 :=
        ⟨hnodup', hmem', hd'rem, hq'iff, htopo'⟩
      have hmeas : kahnMeasure nds p.2 p.1 ≤ fuel := by
        have hstep : kahnMeasure nds p.2 p.1 ≤ kahnMeasure nds rest d := by
          rw [hp]
          exact processNeighbors_measure ns nds hnds d rest hns_sub
        have hconsm : kahnMeasure nds (node :: rest) d = kahnMeasure nds rest d + 1 := by
          simp only [kahnMeasure, List.length_cons]
          omega
        omega
      obtain ⟨doneF, dF, hinvF, hres⟩ := ih (done ++ [node]) p.2 p.1 hinv' hmeas
      refine ⟨doneF, dF, hinvF, ?_⟩
      rw [show (done ++ [node]).length = done.length + 1 from by simp] at hres
      exact hres

end HG.CompileValidator

namespace HG.CompileValidator

open HG

/-- In a finite nonempty set in which every element has a predecessor
inside the set, some element lies on a cycle of the relation. -/
theorem exists_cycle_of_all_pred (R : String → String → Prop) (U : List String)
    (hne : U ≠ []) (hstep : ∀ x ∈ U, ∃ y ∈ U, R y x) :
    ∃ z, Relation.TransGen R z z := by
  classical
  obtain ⟨x0, hx0⟩ : ∃ x, x ∈ U := by
    cases U with
    | nil => exact absurd rfl hne
    | cons a l => exact ⟨a, by simp⟩
  let f : {x : String // x ∈ U} → {x : String // x ∈ U} := fun t =>
    ⟨(hstep t.1 t.2).choose, (hstep t.1 t.2).choose_spec.1⟩
  have hf : ∀ t : {x : String // x ∈ U}, R (f t).1 t.1 := fun t =>
    (hstep t.1 t.2).choose_spec.2
  let seq : Nat → {x : String // x ∈ U} := fun n => f^[n] ⟨x0, hx0⟩
  have hseq_succ : ∀ n, seq (n + 1) = f (seq n) := fun n =>
    Function.iterate_succ_apply' f n _
  have hchain : ∀ i j : Nat, i < j → Relation.TransGen R (seq j).1 (seq i).1 := by
    intro i j hij
    induction j with
    | zero => omega
    | succ k ihk =>
      by_cases hik : i = k
      · subst hik
        rw [hseq_succ i]
        exact Relation.TransGen.single (hf (seq i))
      · have hik2 : i < k := by omega
        rw [hseq_succ k]
        exact Relation.TransGen.head (hf (seq k)) (ihk hik2)
  have hmaps : ∀ n ∈ Finset.range (U.toFinset.card + 1), (seq n).1 ∈ U.toFinset := by
    intro n _
    rw [List.mem_toFinset]
    exact (seq n).2
  obtain ⟨a, ha, b, hb, hab, heq⟩ :=
    Finset.exists_ne_map_eq_of_card_lt_of_maps_to
      (by rw [Finset.card_range]; omega) hmaps
  rcases Nat.lt_or_ge a b with h | h
  · exact ⟨(seq a).1, by
      have := hchain a b h
      rw [heq] at this ⊢
      exact this⟩
  · have hba : b < a := by omega
    exact ⟨(seq b).1, by
      have := hchain b a hba
      rw [← heq] at this ⊢
      exact this⟩

theorem sum_map_zero (l : List String) : (l.map (fun _ => (0 : Nat))).sum = 0 := by
  induction l with
  | nil => rfl
  | cons a t ih => simp [ih]

theorem sum_map_add (l : List String) (f g : String → Nat) :
    (l.map (fun x => f x + g x)).sum = (l.map f).sum + (l.map g).sum := by
  induction l with
  | nil => rfl
  | cons a t ih =>
    simp only [List.map_cons, List.sum_cons, ih]
    omega

theorem sum_ite_eq_zero (t : String) (l : List String) (h : t ∉ l) :
    (l.map (fun x => if (t == x) = true then 1 else 0)).sum = 0 := by
  induction l with
  | nil => rfl
  | cons a rest ih =>
    have hta : ¬ (t = a) := fun hc => h (hc ▸ List.mem_cons_self a rest)
    simp only [List.map_cons, List.sum_cons]
    rw [if_neg (fun hc => hta (beq_iff_eq.mp hc)), ih (fun hc => h (List.mem_cons_of_mem a hc))]

theorem sum_ite_le_one (t : String) (l : List String) (hnd : l.Nodup) :
    (l.map (fun x => if (t == x) = true then 1 else 0)).sum ≤ 1 := by
  induction l with
  | nil => simp
  | cons a rest ih =>
    have hna : a ∉ rest := (List.nodup_cons.mp hnd).1
    have hr : rest.Nodup := (List.nodup_cons.mp hnd).2
    simp only [List.map_cons, List.sum_cons]
    by_cases h : t = a
    · subst h
      rw [if_pos (beq_self_eq_true t), sum_ite_eq_zero t rest hna]
    · rw [if_neg (fun hc => h (beq_iff_eq.mp hc))]
      have := ih hr
      omega

theorem sum_countP_to_le (E : List Edge) (nds : List String) (hnd : nds.Nodup) :
    (nds.map (fun x => E.countP (fun e => e.to_ == x))).sum ≤ E.length := by
  induction E with
  | nil =>
    have hz : (nds.map (fun x => List.countP (fun e : Edge => e.to_ == x) [])).sum = 0 := by
      rw [show (fun x => List.countP (fun e : Edge => e.to_ == x) ([] : List Edge)) =
            (fun _ : String => (0 : Nat)) from funext (fun x => List.countP_nil _)]
      exact sum_map_zero nds
    omega
  | cons e E ih =>
    have hsplit : (nds.map (fun x => List.countP (fun e2 => e2.to_ == x) (e :: E))).sum =
        (nds.map (fun x => List.countP (fun e2 => e2.to_ == x) E)).sum +
        (nds.map (fun x => if (e.to_ == x) = true then 1 else 0)).sum := by
      rw [← sum_map_add]
      apply congrArg
      apply List.map_congr_left
      intro a _
      rw [List.countP_cons]
    rw [hsplit, List.length_cons]
    have h2 := sum_ite_le_one e.to_ nds hnd
    omega

end HG.CompileValidator

namespace HG

open CompileValidator

/-- C5: when every edge endpoint is a declared node, the DAG check accepts
exactly the acyclic graphs; and whenever some edge has an undeclared
endpoint, the check fails up front with the undefined-nodes diagnostic,
before any cycle analysis. -/
theorem C5_dag_check (g : Graph) :
    ((∀ e ∈ g.edges, e.from_ ∈ g.nodes ∧ e.to_ ∈ g.nodes) →
      (validate_dag g = (true, none) ↔ GraphAcyclic g)) ∧
    ((∃ e ∈ g.edges, ¬ (e.from_ ∈ g.nodes ∧ e.to_ ∈ g.nodes)) →
      validate_dag g = (false, some "Dependency graph contains undefined nodes.")) := by
  constructor
  · intro hE0
    have hE : ∀ e ∈ g.edges, e.from_ ∈ g.nodes.dedup ∧ e.to_ ∈ g.nodes.dedup := fun e he =>
      ⟨List.mem_dedup.mpr (hE0 e he).1, List.mem_dedup.mpr (hE0 e he).2⟩
    have hnds : g.nodes.dedup.Nodup := List.nodup_dedup g.nodes
    have hany : (g.edges.any
        (fun e => !(g.nodes.dedup.contains e.from_) || !(g.nodes.dedup.contains e.to_))) = false := by
      rw [List.any_eq_false]
      intro e he
      simp
      exact ⟨(hE0 e he).1, (hE0 e he).2⟩
    have hinv0 : KahnInv g.edges g.nodes.dedup []
        (g.nodes.dedup.filter (fun n => (buildDegAdj g.edges).1 n == 0))
        (buildDegAdj g.edges).1 := by
      refine ⟨?_, ?_, ?_, ?_, ?_⟩
      · simpa using hnds.filter (fun n => (buildDegAdj g.edges).1 n == 0)
      · intro x hx
        simp only [List.nil_append] at hx
        exact (List.mem_filter.mp hx).1
      · intro x
        rw [buildDegAdj_fst, inRemaining_nil_done]
      · intro x
        rw [List.mem_filter]
        constructor
        · rintro ⟨h1, h2⟩
          exact ⟨h1, by simp, beq_iff_eq.mp h2⟩
        · rintro ⟨h1, _, h3⟩
          exact ⟨h1, beq_iff_eq.mpr h3⟩
      · intro e _ hto
        simp at hto
    have hfuel : kahnMeasure g.nodes.dedup
        (g.nodes.dedup.filter (fun n => (buildDegAdj g.edges).1 n == 0))
        (buildDegAdj g.edges).1 ≤ g.nodes.dedup.length + g.edges.length + 1 := by
      simp only [kahnMeasure]
      have h1 : (g.nodes.dedup.filter (fun n => (buildDegAdj g.edges).1 n == 0)).length ≤
          g.nodes.dedup.length := List.length_filter_le _ _
      have h2 : (g.nodes.dedup.map (fun x => ((buildDegAdj g.edges).1 x).toNat)).sum =
          (g.nodes.dedup.map (fun x => g.edges.countP (fun e => e.to_ == x))).sum := by
        apply congrArg
        apply List.map_congr_left
        intro a _
        rw [buildDegAdj_fst]
        exact Int.toNat_natCast _
      have h3 := sum_countP_to_le g.edges g.nodes.dedup hnds
      omega
    obtain ⟨doneF, dF, hinvF, hres⟩ :=
      kahnLoop_spec g.edges g.nodes.dedup hnds hE
        (g.nodes.dedup.length + g.edges.length + 1) []
        (g.nodes.dedup.filter (fun n => (buildDegAdj g.edges).1 n == 0))
        (buildDegAdj g.edges).1 hinv0 hfuel
    simp only [List.length_nil] at hres
    have hval : validate_dag g =
        (if doneF.length ≠ g.nodes.dedup.length then
          ((false : Bool), some "Dependency graph contains a cycle.")
        else ((true : Bool), (none : Option String))) := by
      simp only [validate_dag]
      rw [if_neg (by rw [hany]; exact Bool.false_ne_true)]
      rw [hres]
    obtain ⟨hnodupF, hmemF, hdegF, hqiffF, htopoF⟩ := hinvF
    have hnodupF2 : doneF.Nodup := by simpa using hnodupF
    have hsub : ∀ x ∈ doneF, x ∈ g.nodes.dedup := fun x hx => hmemF x (by simpa using hx)
    constructor
    · intro hvd
      have hlen : doneF.length = g.nodes.dedup.length := by
        by_contra hne
        rw [hval, if_pos hne] at hvd
        simp at hvd
      have hall : ∀ y ∈ g.nodes.dedup, y ∈ doneF := by
        have hsubperm := List.Nodup.subperm hnodupF2 hsub
        have hperm := hsubperm.perm_of_length_le (by omega)
        intro y hy
        exact hperm.mem_iff.mpr hy
      have hedge : ∀ a b : String, edgeRel g.edges a b → precedes doneF a b := by
        rintro a b ⟨e, he, hfa, htb⟩
        have hmemto : e.to_ ∈ doneF := hall e.to_ (hE e he).2
        have := htopoF e he hmemto
        rw [hfa, htb] at this
        exact this
      have htg : ∀ a b : String, Relation.TransGen (edgeRel g.edges) a b →
          precedes doneF a b := by
        intro a b h
        induction h with
        | single h => exact hedge _ _ h
        | tail hab hbc ihab => exact precedes_trans doneF hnodupF2 _ _ _ ihab (hedge _ _ hbc)
      rintro ⟨x, hcyc⟩
      exact precedes_irrefl doneF hnodupF2 x (htg x x hcyc)
    · intro hacyc
      rw [hval]
      have hlen : doneF.length = g.nodes.dedup.length := by
        have hsubperm := List.Nodup.subperm hnodupF2 hsub
        have hle : doneF.length ≤ g.nodes.dedup.length := hsubperm.length_le
        by_contra hne
        have hex : ∃ u ∈ g.nodes.dedup, u ∉ doneF := by
          by_contra hc
          push_neg at hc
          have := (List.Nodup.subperm hnds hc).length_le
          omega
        obtain ⟨u, hu, hu2⟩ := hex
        have hUne : g.nodes.dedup.filter (fun x => !(doneF.contains x)) ≠ [] := by
          intro hc
          have hmu : u ∈ g.nodes.dedup.filter (fun x => !(doneF.contains x)) := by
            rw [List.mem_filter]
            refine ⟨hu, ?_⟩
            rw [show doneF.contains u = false from
              Bool.eq_false_iff.mpr (fun hcc => hu2 (List.mem_of_elem_eq_true hcc))]
            rfl
          rw [hc] at hmu
          simp at hmu
        have hstepU : ∀ x ∈ g.nodes.dedup.filter (fun x => !(doneF.contains x)),
            ∃ y ∈ g.nodes.dedup.filter (fun x => !(doneF.contains x)), edgeRel g.edges y x := by
          intro x hx
          rw [List.mem_filter] at hx
          have hxnds : x ∈ g.nodes.dedup := hx.1
          have hxnotF : x ∉ doneF := by
            intro hc
            have h1 : doneF.contains x = true := List.elem_eq_true_of_mem hc
            have h2 := hx.2
            rw [h1] at h2
            simp at h2
          have hdx : dF x ≠ 0 := by
            intro hc
            have := (hqiffF x).mpr ⟨hxnds, hxnotF, hc⟩
            simp at this
          rw [hdegF x] at hdx
          have hpos : 0 < g.edges.countP (fun e => e.to_ == x && !(doneF.contains e.from_)) := by
            simp only [inRemaining] at hdx
            omega
          obtain ⟨e, he, hpe⟩ := List.countP_pos.mp hpos
          simp only [Bool.and_eq_true, beq_iff_eq, Bool.not_eq_eq_eq_not, Bool.not_true] at hpe
          obtain ⟨hto, hfr⟩ := hpe
          refine ⟨e.from_, ?_, ⟨e, he, rfl, hto⟩⟩
          rw [List.mem_filter]
          refine ⟨(hE e he).1, ?_⟩
          rw [hfr]
          rfl
        obtain ⟨z, hz⟩ := exists_cycle_of_all_pred (edgeRel g.edges) _ hUne hstepU
        exact hacyc ⟨z, hz⟩
      rw [if_neg (fun hc => hc hlen)]
  · rintro ⟨e, he, hbad⟩
    have hany : (g.edges.any
        (fun e => !(g.nodes.dedup.contains e.from_) || !(g.nodes.dedup.contains e.to_))) = true := by
      rw [List.any_eq_true]
      refine ⟨e, he, ?_⟩
      rcases not_and_or.mp hbad with hc | hc
      · have hnc : (g.nodes.dedup.contains e.from_) = false :=
          Bool.eq_false_iff.mpr (fun hcc => hc (List.mem_dedup.mp (List.mem_of_elem_eq_true hcc)))
        rw [hnc]
        rfl
      · have hnc : (g.nodes.dedup.contains e.to_) = false :=
          Bool.eq_false_iff.mpr (fun hcc => hc (List.mem_dedup.mp (List.mem_of_elem_eq_true hcc)))
        rw [hnc]
        simp
    simp only [validate_dag]
    rw [if_pos hany]

/-- Witness for C5: the iff at a concrete two-edge acyclic graph, and the
undefined-nodes rejection at a graph whose edge targets an undeclared
node. -/
theorem C5_witness :
    ((validate_dag (Graph.mk ["A", "B", "C"] [Edge.mk "A" "B", Edge.mk "B" "C"]) = (true, none)) ↔
      GraphAcyclic (Graph.mk ["A", "B", "C"] [Edge.mk "A" "B", Edge.mk "B" "C"])) ∧
    validate_dag (Graph.mk ["A"] [Edge.mk "A" "Z"]) =
      (false, some "Dependency graph contains undefined nodes.") := by
  constructor
  · exact (C5_dag_check (Graph.mk ["A", "B", "C"] [Edge.mk "A" "B", Edge.mk "B" "C"])).1
      (by decide)
  · exact (C5_dag_check (Graph.mk ["A"] [Edge.mk "A" "Z"])).2
      ⟨Edge.mk "A" "Z", by simp, by decide⟩

end HG
